import Mathlib

set_option autoImplicit false

/-!
Verification development for the versioned document store:
operation appliers (helpers/history/applier_tree.py, helpers/history/paths.py),
the undo/redo history stack (helpers/history/history.py), and the persisted
domain index layer (helpers/persist/index.py,
helpers/persist/persisted_catalog_loader.py,
helpers/catalogloader/persistedloader.py).

JSON-compatible documents (nested dict / list / primitive trees) are embedded
as the inductive type JTree; Python dicts become insertion-ordered association
lists (List (String × JTree)), faithful to CPython dict semantics (assignment
to an existing key updates it in place, a new key is appended at the end,
deletion removes the entry).  Python exceptions become Option/none.  Python ==
on trees, which is order-insensitive on dicts, is embedded as pyEq.  Machine
integers are Int (Python ints are unbounded, so no wrap-around modelling is
needed).  Metadata fields that never influence control flow (op_id, OpMeta,
timestamps inside OpMeta) are omitted from the Operation embedding; the
persist-layer audit timestamps are threaded as an explicit `now` argument.
-/

namespace MyToolkit

/-- JSON-compatible document tree: the duck-typed dict/list/primitive documents
the appliers operate on. -/
inductive JTree where
  | null : JTree
  | bool : Bool → JTree
  | num : Int → JTree
  | str : String → JTree
  | arr : List JTree → JTree
  | obj : List (String × JTree) → JTree
  deriving Repr

mutual

/-- Structural (order-sensitive) boolean equality on trees. -/
def jbeq : JTree → JTree → Bool
  | .null, .null => true
  | .bool a, .bool b => a == b
  | .num a, .num b => a == b
  | .str a, .str b => a == b
  | .arr xs, .arr ys => jbeqList xs ys
  | .obj xs, .obj ys => jbeqKVs xs ys
  | _, _ => false

/-- Structural equality on lists of trees. -/
def jbeqList : List JTree → List JTree → Bool
  | [], [] => true
  | x :: xs, y :: ys => jbeq x y && jbeqList xs ys
  | _, _ => false

/-- Structural equality on key-value lists. -/
def jbeqKVs : List (String × JTree) → List (String × JTree) → Bool
  | [], [] => true
  | (k, v) :: xs, (l, w) :: ys => k == l && jbeq v w && jbeqKVs xs ys
  | _, _ => false

end

mutual

theorem jbeq_sound : ∀ (a b : JTree), jbeq a b = true → a = b
  | .null, .null, _ => rfl
  | .bool _, .bool _, h => by simp [jbeq] at h; simp [h]
  | .num _, .num _, h => by simp [jbeq] at h; simp [h]
  | .str _, .str _, h => by simp [jbeq] at h; simp [h]
  | .arr xs, .arr ys, h => by
      simp only [jbeq] at h
      exact congrArg JTree.arr (jbeqList_sound xs ys h)
  | .obj xs, .obj ys, h => by
      simp only [jbeq] at h
      exact congrArg JTree.obj (jbeqKVs_sound xs ys h)

theorem jbeqList_sound : ∀ (a b : List JTree), jbeqList a b = true → a = b
  | [], [], _ => rfl
  | x :: xs, y :: ys, h => by
      simp only [jbeqList, Bool.and_eq_true] at h
      rw [jbeq_sound x y h.1, jbeqList_sound xs ys h.2]

theorem jbeqKVs_sound : ∀ (a b : List (String × JTree)), jbeqKVs a b = true → a = b
  | [], [], _ => rfl
  | (k, v) :: xs, (l, w) :: ys, h => by
      simp only [jbeqKVs, Bool.and_eq_true] at h
      obtain ⟨⟨h1, h2⟩, h3⟩ := h
      rw [jbeq_sound v w h2, jbeqKVs_sound xs ys h3]
      simp only [beq_iff_eq] at h1
      rw [h1]

end

mutual

theorem jbeq_refl : ∀ a : JTree, jbeq a a = true
  | .null => rfl
  | .bool _ => by simp [jbeq]
  | .num _ => by simp [jbeq]
  | .str _ => by simp [jbeq]
  | .arr xs => by simp only [jbeq]; exact jbeqList_refl xs
  | .obj xs => by simp only [jbeq]; exact jbeqKVs_refl xs

theorem jbeqList_refl : ∀ a : List JTree, jbeqList a a = true
  | [] => rfl
  | x :: xs => by
      simp only [jbeqList, Bool.and_eq_true]
      exact ⟨jbeq_refl x, jbeqList_refl xs⟩

theorem jbeqKVs_refl : ∀ a : List (String × JTree), jbeqKVs a a = true
  | [] => rfl
  | (k, v) :: xs => by
      simp only [jbeqKVs, Bool.and_eq_true]
      exact ⟨⟨by simp, jbeq_refl v⟩, jbeqKVs_refl xs⟩

end

instance : DecidableEq JTree := fun a b =>
  if h : jbeq a b = true then .isTrue (jbeq_sound a b h)
  else .isFalse (fun e => h (e ▸ jbeq_refl a))

/-! ### Python dict primitives on insertion-ordered association lists -/

/-- Python `d[k]` read / `k in d` membership: value of the first entry with
key `k`, if any. -/
def dlookup : List (String × JTree) → String → Option JTree
  | [], _ => none
  | (k, v) :: rest, key => if k = key then some v else dlookup rest key

/-- Python `k in d`. -/
def dmem (kvs : List (String × JTree)) (key : String) : Bool :=
  (dlookup kvs key).isSome

/-- Python `d[k] = v`: replace the value of an existing key in place, keeping
its position, or append a new entry at the end. -/
def dset : List (String × JTree) → String → JTree → List (String × JTree)
  | [], key, v => [(key, v)]
  | (k, w) :: rest, key, v =>
      if k = key then (k, v) :: rest else (k, w) :: dset rest key v

/-- Python `d.pop(k, None)`: remove the entry with key `k` if present. -/
def dpop : List (String × JTree) → String → List (String × JTree)
  | [], _ => []
  | (k, w) :: rest, key => if k = key then rest else (k, w) :: dpop rest key

/-- Python `d.update(other)`: set each key of `other`, in order. -/
def dmerge (cur aft : List (String × JTree)) : List (String × JTree) :=
  aft.foldl (fun d kv => dset d kv.1 kv.2) cur

/-! ### Python list index semantics -/

/-- Python list subscript resolution (`lst[i]`, `lst[i] = v`, `lst.pop(i)`,
`del lst[i]`): a nonnegative index must be `< len`, a negative index wraps
from the end; out of range raises `IndexError`. -/
def pyIdx (n : Nat) (i : Int) : Option Nat :=
  if 0 ≤ i then (if i < (n : Int) then some i.toNat else none)
  else (if 0 ≤ (n : Int) + i then some ((n : Int) + i).toNat else none)

/-- Python `lst.insert(i, v)` position clamping: negative indices count from
the end (clamped at 0), positive ones are clamped at `len`. -/
def pyInsertPos (n : Nat) (i : Int) : Nat :=
  if i < 0 then ((n : Int) + i).toNat else min i.toNat n

/-- Insert at a (already clamped) position. -/
def listInsertAt {α : Type} : List α → Nat → α → List α
  | xs, 0, v => v :: xs
  | [], _ + 1, v => [v]
  | x :: xs, n + 1, v => x :: listInsertAt xs n v

/-- Remove and return the element at a (already resolved) position. -/
def listPopAt {α : Type} : List α → Nat → Option (α × List α)
  | [], _ => none
  | x :: xs, 0 => some (x, xs)
  | x :: xs, n + 1 => (listPopAt xs n).map fun p => (p.1, x :: p.2)

/-! ### Path resolver (helpers/history/paths.py)

A path token is a string key or an integer index (`PathToken = Union[str, int]`).
`normalize_path_tokens` on a token list is the identity, so paths are embedded
directly as `List Tok`.  All raising functions return `Option`. -/

/-- A path token: `Key(string) | Index(int)`. -/
inductive Tok where
  | key : String → Tok
  | idx : Int → Tok
  deriving Repr, DecidableEq

/-- `get_at(doc, path)`: resolve the value at a path.  A string token requires
a dict and an existing key, an integer token requires a list and an in-range
(possibly negative) index; otherwise `PathError`/`KeyError`/`IndexError`. -/
def get_at : JTree → List Tok → Option JTree
  | doc, [] => some doc
  | doc, t :: rest =>
    match doc, t with
    | .obj kvs, .key k => (dlookup kvs k).bind fun v => get_at v rest
    | .arr xs, .idx i => (pyIdx xs.length i).bind fun j =>
        (xs[j]?).bind fun v => get_at v rest
    | _, _ => none

/-- The last step of `set_at`: a dict key is assigned (created when missing),
a list index must be in range. -/
def setLast : JTree → Tok → JTree → Option JTree
  | .obj kvs, .key k, v => some (.obj (dset kvs k v))
  | .arr xs, .idx i, v => (pyIdx xs.length i).map fun j => .arr (xs.set j v)
  | _, _, _ => none

/-- `set_at(doc, path, value)`: empty path replaces the root; otherwise the
walk to the parent requires every intermediate token to resolve, and the last
token is assigned (`setLast`).  The Python version mutates the parent
container in place; here the tree is rebuilt along the path, which is
observationally the same on tree-shaped data. -/
def set_at : JTree → List Tok → JTree → Option JTree
  | _, [], v => some v
  | doc, [t], v => setLast doc t v
  | doc, t :: t2 :: rest, v =>
    match doc, t with
    | .obj kvs, .key k =>
        (dlookup kvs k).bind fun child =>
        (set_at child (t2 :: rest) v).map fun c => .obj (dset kvs k c)
    | .arr xs, .idx i =>
        (pyIdx xs.length i).bind fun j =>
        (xs[j]?).bind fun child =>
        (set_at child (t2 :: rest) v).map fun c => .arr (xs.set j c)
    | _, _ => none

/-- `del_at(doc, path)`: delete a dict key.  Requires a non-empty path whose
last token is a string key; the parent must be a dict; a missing key is a
no-op.  The parent is resolved with `get_at` and mutated in place, embedded
here as replacing the subtree at the parent path. -/
def del_at (doc : JTree) (p : List Tok) : Option JTree :=
  match p.getLast? with
  | none => none
  | some (.idx _) => none
  | some (.key k) =>
      (get_at doc p.dropLast).bind fun parent =>
      match parent with
      | .obj kvs => set_at doc p.dropLast (.obj (dpop kvs k))
      | _ => none

/-! ### Copy-on-write helpers (applier_tree.py `_cow_*`) -/

/-- `_cow_set_at`: copy-on-write set.  Unlike `set_at`, every token on the
path (including the last) must already exist: an integer token is checked with
an explicit `0 <= tok < len` test (negative indices rejected), a string token
raises `KeyError` when absent. -/
def cow_set_at : JTree → List Tok → JTree → Option JTree
  | _, [], v => some v
  | doc, t :: rest, v =>
    match doc, t with
    | .arr xs, .idx i =>
        if 0 ≤ i ∧ i < (xs.length : Int) then
          (xs[i.toNat]?).bind fun child =>
          (cow_set_at child rest v).map fun c => .arr (xs.set i.toNat c)
        else none
    | .obj kvs, .key k =>
        (dlookup kvs k).bind fun child =>
        (cow_set_at child rest v).map fun c => .obj (dset kvs k c)
    | _, _ => none

/-- `_cow_del_at`: copy-on-write delete.  Empty path is an error.  A final
string token pops the dict key (no-op when missing); a final integer token
deletes the list element (`del new_list[key]`, negative wrap, IndexError when
out of range).  Intermediate tokens must exist, with nonnegative in-range
integer indices. -/
def cow_del_at : JTree → List Tok → Option JTree
  | _, [] => none
  | doc, [t] =>
    match t with
    | .idx i =>
      match doc with
      | .arr xs => (pyIdx xs.length i).map fun j => .arr (xs.eraseIdx j)
      | _ => none
    | .key k =>
      match doc with
      | .obj kvs => some (.obj (dpop kvs k))
      | _ => none
  | doc, t :: t2 :: rest =>
    match doc, t with
    | .arr xs, .idx i =>
        if 0 ≤ i ∧ i < (xs.length : Int) then
          (xs[i.toNat]?).bind fun child =>
          (cow_del_at child (t2 :: rest)).map fun c => .arr (xs.set i.toNat c)
        else none
    | .obj kvs, .key k =>
        (dlookup kvs k).bind fun child =>
        (cow_del_at child (t2 :: rest)).map fun c => .obj (dset kvs k c)
    | _, _ => none

/-! ### Operations (helpers/history/ops.py) -/

/-- The seven recognised patch types. -/
inductive PatchType where
  | set | replace | merge | insert | remove | move | del
  deriving Repr, DecidableEq

/-- `Operation`: a universal invertible mutation.  The identity and metadata
fields (`op_id`, `meta`) never influence apply/invert/coalesce control flow
apart from being copied around, and are omitted. -/
structure Operation where
  patch_type : PatchType
  path : List Tok
  before : JTree
  after : JTree
  index : Option Int := none
  from_index : Option Int := none
  to_index : Option Int := none
  coalesce_key : Option String := none
  deriving Repr, DecidableEq

namespace TreeApplier

/-- `TreeApplier.apply`: apply an operation to a document (mutable strategy,
embedded functionally). -/
def apply (doc : JTree) (op : Operation) : Option JTree :=
  match op.patch_type with
  | .set | .replace => set_at doc op.path op.after
  | .merge =>
      (get_at doc op.path).bind fun cur =>
      match cur, op.after with
      | .obj curKvs, .obj aftKvs => set_at doc op.path (.obj (dmerge curKvs aftKvs))
      | _, _ => none
  | .insert =>
      match op.index with
      | none => none
      | some i =>
        (get_at doc op.path).bind fun cur =>
        match cur with
        | .arr xs =>
            set_at doc op.path (.arr (listInsertAt xs (pyInsertPos xs.length i) op.after))
        | _ => none
  | .remove =>
      match op.index with
      | none => none
      | some i =>
        (get_at doc op.path).bind fun cur =>
        match cur with
        | .arr xs =>
            (pyIdx xs.length i).bind fun j =>
            (listPopAt xs j).bind fun pr => set_at doc op.path (.arr pr.2)
        | _ => none
  | .move =>
      match op.from_index, op.to_index with
      | some f, some t =>
        (get_at doc op.path).bind fun cur =>
        match cur with
        | .arr xs =>
            (pyIdx xs.length f).bind fun jf =>
            (listPopAt xs jf).bind fun pr =>
            set_at doc op.path
              (.arr (listInsertAt pr.2 (pyInsertPos pr.2.length t) pr.1))
        | _ => none
      | _, _ => none
  | .del => del_at doc op.path

/-- `TreeApplier.invert`. -/
def invert (op : Operation) : Operation :=
  match op.patch_type with
  | .move =>
      { op with from_index := op.to_index, to_index := op.from_index,
                before := op.after, after := op.before }
  | .insert => { op with patch_type := .remove, before := op.after, after := op.before }
  | .remove => { op with patch_type := .insert, before := op.after, after := op.before }
  | .del => { op with patch_type := .set, before := JTree.null, after := op.before }
  | _ => { op with before := op.after, after := op.before }

end TreeApplier

namespace ImmutableTreeApplier

/-- `ImmutableTreeApplier.apply`: the copy-on-write strategy.  List operations
go through `_cow_list_insert` / `_cow_list_remove` / `_cow_list_move`, which
resolve the list with `get_at`, rebuild it, and store it back with
`_cow_set_at`; that composition is inlined here. -/
def apply (doc : JTree) (op : Operation) : Option JTree :=
  match op.patch_type with
  | .set | .replace => cow_set_at doc op.path op.after
  | .merge =>
      (get_at doc op.path).bind fun cur =>
      match cur, op.after with
      | .obj curKvs, .obj aftKvs => cow_set_at doc op.path (.obj (dmerge curKvs aftKvs))
      | _, _ => none
  | .insert =>
      match op.index with
      | none => none
      | some i =>
        (get_at doc op.path).bind fun cur =>
        match cur with
        | .arr xs =>
            cow_set_at doc op.path (.arr (listInsertAt xs (pyInsertPos xs.length i) op.after))
        | _ => none
  | .remove =>
      match op.index with
      | none => none
      | some i =>
        (get_at doc op.path).bind fun cur =>
        match cur with
        | .arr xs =>
            (pyIdx xs.length i).bind fun j =>
            (listPopAt xs j).bind fun pr => cow_set_at doc op.path (.arr pr.2)
        | _ => none
  | .move =>
      match op.from_index, op.to_index with
      | some f, some t =>
        (get_at doc op.path).bind fun cur =>
        match cur with
        | .arr xs =>
            (pyIdx xs.length f).bind fun jf =>
            (listPopAt xs jf).bind fun pr =>
            cow_set_at doc op.path
              (.arr (listInsertAt pr.2 (pyInsertPos pr.2.length t) pr.1))
        | _ => none
      | _, _ => none
  | .del => cow_del_at doc op.path

/-- The copy-on-write applier inherits `invert` unchanged from `TreeApplier`. -/
def invert (op : Operation) : Operation := TreeApplier.invert op

end ImmutableTreeApplier

/-! ### Python `==` on trees, and dict well-formedness

Python `==` compares dicts without regard to insertion order: two dicts are
equal when they have the same number of keys and every key of the left one maps
to an equal value in the right one.  Lists compare element-wise in order. -/

mutual

/-- Python `==` on document trees. -/
def pyEq : JTree → JTree → Bool
  | .null, .null => true
  | .bool a, .bool b => a == b
  | .num a, .num b => a == b
  | .str a, .str b => a == b
  | .arr xs, .arr ys => pyEqList xs ys
  | .obj xs, .obj ys => xs.length == ys.length && pyEqObj xs ys
  | _, _ => false

/-- Python `==` on lists: element-wise, in order. -/
def pyEqList : List JTree → List JTree → Bool
  | [], [] => true
  | x :: xs, y :: ys => pyEq x y && pyEqList xs ys
  | _, _ => false

/-- Every entry of the left dict is present with an equal value in the right
dict. -/
def pyEqObj : List (String × JTree) → List (String × JTree) → Bool
  | [], _ => true
  | (k, v) :: rest, ys =>
      (match dlookup ys k with
       | some w => pyEq v w
       | none => false) && pyEqObj rest ys

end

/-- Pairwise-distinct key list, as Python dicts guarantee by construction. -/
def keysNodup : List String → Bool
  | [] => true
  | k :: rest => !(rest.contains k) && keysNodup rest

mutual

/-- A tree is well-formed when every dict node has pairwise-distinct keys.
Every tree that arises from a real Python dict/list document is well-formed. -/
def wfT : JTree → Bool
  | .arr xs => wfL xs
  | .obj kvs => keysNodup (kvs.map Prod.fst) && wfKVs kvs
  | _ => true

/-- Well-formedness of every element. -/
def wfL : List JTree → Bool
  | [] => true
  | x :: xs => wfT x && wfL xs

/-- Well-formedness of every value. -/
def wfKVs : List (String × JTree) → Bool
  | [] => true
  | (_, v) :: rest => wfT v && wfKVs rest

end

/-! ### Validity of an operation on a tree

The spec quantifies over "valid" operations: the path must resolve in the
tree, `before` must equal the value currently affected, and all index fields
must be in range.  Path indices are taken in canonical nonnegative form. -/

/-- Every integer token on the path is nonnegative. -/
def pathNonneg (p : List Tok) : Bool :=
  p.all fun t => match t with | .key _ => true | .idx i => decide (0 ≤ i)

/-- `validFor d op`: the spec notion of a valid operation on tree `d`. -/
def validFor (d : JTree) (op : Operation) : Bool :=
  pathNonneg op.path &&
  match op.patch_type with
  | .set | .replace => get_at d op.path == some op.before
  | .merge =>
      (match get_at d op.path, op.after with
       | some (.obj _), .obj _ => true
       | _, _ => false) &&
      (get_at d op.path == some op.before)
  | .insert =>
      match op.index, get_at d op.path with
      | some i, some (.arr xs) => decide (0 ≤ i) && decide (i ≤ (xs.length : Int))
      | _, _ => false
  | .remove =>
      match op.index, get_at d op.path with
      | some i, some (.arr xs) =>
          decide (0 ≤ i) && decide (i < (xs.length : Int)) &&
          (xs[i.toNat]? == some op.before)
      | _, _ => false
  | .move =>
      match op.from_index, op.to_index, get_at d op.path with
      | some f, some t, some (.arr xs) =>
          decide (0 ≤ f) && decide (f < (xs.length : Int)) &&
          decide (0 ≤ t) && decide (t < (xs.length : Int)) &&
          (xs[f.toNat]? == some op.before)
      | _, _, _ => false
  | .del =>
      (match op.path.getLast? with | some (.key _) => true | _ => false) &&
      (get_at d op.path == some op.before)

/-! ### Dict lemmas -/

theorem dlookup_dset_self (kvs : List (String × JTree)) (k : String) (v : JTree) :
    dlookup (dset kvs k v) k = some v := by
  induction kvs with
  | nil => simp [dset, dlookup]
  | cons kv rest ih =>
    obtain ⟨k1, w⟩ := kv
    by_cases h : k1 = k
    · simp [dset, h, dlookup]
    · simp [dset, h, dlookup, ih]

theorem dlookup_dset_ne (kvs : List (String × JTree)) (k k1 : String) (v : JTree)
    (h : k1 ≠ k) : dlookup (dset kvs k v) k1 = dlookup kvs k1 := by
  induction kvs with
  | nil => simp [dset, dlookup, h.symm]
  | cons kv rest ih =>
    obtain ⟨k2, w⟩ := kv
    by_cases h2 : k2 = k
    · subst h2
      simp [dset, dlookup, h.symm]
    · simp only [dset, if_neg h2]
      by_cases h3 : k2 = k1 <;> simp [dlookup, h3, ih]

theorem dset_dset (kvs : List (String × JTree)) (k : String) (v w : JTree) :
    dset (dset kvs k v) k w = dset kvs k w := by
  induction kvs with
  | nil => simp [dset]
  | cons kv rest ih =>
    obtain ⟨k1, u⟩ := kv
    by_cases h : k1 = k <;> simp [dset, h, ih]

theorem dset_self (kvs : List (String × JTree)) (k : String) (v : JTree)
    (h : dlookup kvs k = some v) : dset kvs k v = kvs := by
  induction kvs with
  | nil => simp [dlookup] at h
  | cons kv rest ih =>
    obtain ⟨k1, u⟩ := kv
    by_cases h1 : k1 = k
    · subst h1
      simp [dlookup] at h
      simp [dset, h]
    · simp [dlookup, h1] at h
      simp [dset, h1, ih h]

theorem dlookup_not_mem (kvs : List (String × JTree)) (k : String)
    (h : ¬ k ∈ kvs.map Prod.fst) : dlookup kvs k = none := by
  induction kvs with
  | nil => simp [dlookup]
  | cons kv rest ih =>
    obtain ⟨k1, u⟩ := kv
    simp only [List.map_cons, List.mem_cons, not_or] at h
    have h1 : ¬ k1 = k := fun e => h.1 e.symm
    simp [dlookup, h1, ih h.2]

theorem strContains_iff (ks : List String) (k : String) :
    ks.contains k = true ↔ k ∈ ks := by
  induction ks with
  | nil => simp [List.contains, List.elem]
  | cons k1 rest ih =>
    simp only [List.contains, List.elem] at ih ⊢
    by_cases h : k = k1
    · simp [h, beq_self_eq_true, List.mem_cons]
    · have hb : (k == k1) = false := beq_false_of_ne h
      simp [hb, List.mem_cons, ih, h]

theorem keysNodup_cons (k : String) (ks : List String) :
    keysNodup (k :: ks) = true ↔ ¬ k ∈ ks ∧ keysNodup ks = true := by
  simp only [keysNodup, Bool.and_eq_true, Bool.not_eq_true', ← strContains_iff ks k]
  constructor
  · intro h
    refine ⟨fun hm => ?_, h.2⟩
    rw [h.1] at hm
    exact Bool.noConfusion hm
  · intro h
    refine ⟨?_, h.2⟩
    cases hc : ks.contains k
    · rfl
    · exact absurd hc h.1

theorem dlookup_dpop_none (kvs : List (String × JTree)) (k : String)
    (hnd : keysNodup (kvs.map Prod.fst) = true) :
    dlookup (dpop kvs k) k = none := by
  induction kvs with
  | nil => simp [dpop, dlookup]
  | cons kv rest ih =>
    obtain ⟨k1, u⟩ := kv
    rw [List.map_cons, keysNodup_cons] at hnd
    by_cases h1 : k1 = k
    · subst h1
      simp only [dpop, if_pos rfl]
      exact dlookup_not_mem rest k1 hnd.1
    · simp only [dpop, if_neg h1, dlookup, if_neg h1]
      exact ih hnd.2

theorem dlookup_dpop_ne (kvs : List (String × JTree)) (k k1 : String)
    (h : k1 ≠ k) : dlookup (dpop kvs k) k1 = dlookup kvs k1 := by
  induction kvs with
  | nil => simp [dpop]
  | cons kv rest ih =>
    obtain ⟨k2, u⟩ := kv
    by_cases h2 : k2 = k
    · subst h2
      simp [dpop, dlookup, Ne.symm h]
    · simp only [dpop, if_neg h2, dlookup]
      by_cases h3 : k2 = k1
      · simp [h3]
      · simp [h3, ih]

theorem dset_append_of_not_mem (kvs : List (String × JTree)) (k : String) (v : JTree)
    (h : dlookup kvs k = none) : dset kvs k v = kvs ++ [(k, v)] := by
  induction kvs with
  | nil => simp [dset]
  | cons kv rest ih =>
    obtain ⟨k1, u⟩ := kv
    by_cases h1 : k1 = k
    · simp [dlookup, h1] at h
    · simp only [dlookup, if_neg h1] at h
      simp [dset, h1, ih h]

/-- With pairwise-distinct keys, every entry is found by lookup. -/
theorem dlookup_of_mem (kvs : List (String × JTree)) (k : String) (v : JTree)
    (hnd : keysNodup (kvs.map Prod.fst) = true) (hm : (k, v) ∈ kvs) :
    dlookup kvs k = some v := by
  induction kvs with
  | nil => simp at hm
  | cons kv rest ih =>
    obtain ⟨k1, u⟩ := kv
    rw [List.map_cons, keysNodup_cons] at hnd
    rcases List.mem_cons.mp hm with h | h
    · obtain ⟨e1, e2⟩ := Prod.mk.injEq .. ▸ h
      subst e1
      simp [dlookup, e2.symm]
    · have hne : k1 ≠ k := by
        intro e
        subst e
        exact hnd.1 (List.mem_map.mpr ⟨(k1, v), h, rfl⟩)
      simp [dlookup, hne, ih hnd.2 h]

theorem dpop_length_mem (kvs : List (String × JTree)) (k : String)
    (h : dmem kvs k = true) : (dpop kvs k).length + 1 = kvs.length := by
  induction kvs with
  | nil => simp [dmem, dlookup] at h
  | cons kv rest ih =>
    obtain ⟨k1, u⟩ := kv
    by_cases h1 : k1 = k
    · simp [dpop, h1]
    · simp only [dmem, dlookup, if_neg h1] at h
      simp [dpop, h1, ih h]

theorem dset_length_mem (kvs : List (String × JTree)) (k : String) (v : JTree)
    (h : dmem kvs k = true) : (dset kvs k v).length = kvs.length := by
  induction kvs with
  | nil => simp [dmem, dlookup] at h
  | cons kv rest ih =>
    obtain ⟨k1, u⟩ := kv
    by_cases h1 : k1 = k
    · simp [dset, h1]
    · simp only [dmem, dlookup, if_neg h1] at h
      simp [dset, h1, ih h]

/-! ### List and index lemmas -/

theorem pyIdx_of_nonneg (n : Nat) (i : Int) (h0 : 0 ≤ i) (h1 : i < (n : Int)) :
    pyIdx n i = some i.toNat := by
  simp [pyIdx, h0, h1]

theorem pyIdx_some (n : Nat) (i : Int) (j : Nat) (h : pyIdx n i = some j) : j < n := by
  by_cases h0 : 0 ≤ i
  · by_cases h1 : i < (n : Int)
    · rw [pyIdx_of_nonneg n i h0 h1] at h
      cases h
      omega
    · simp [pyIdx, h0, h1] at h
  · simp only [pyIdx, if_neg h0] at h
    by_cases h2 : 0 ≤ (n : Int) + i
    · simp only [if_pos h2, Option.some.injEq] at h
      omega
    · simp [h2] at h

theorem lget_set_self {α : Type} : ∀ (xs : List α) (j : Nat) (v : α), j < xs.length →
    (xs.set j v)[j]? = some v
  | _ :: _, 0, _, _ => by simp [List.set]
  | x :: xs, j + 1, v, h => by
      simp only [List.set, List.getElem?_cons_succ]
      exact lget_set_self xs j v (by simpa using h)
  | [], _, _, h => by simp at h

theorem lset_get_self {α : Type} : ∀ (xs : List α) (j : Nat) (t : α),
    xs[j]? = some t → xs.set j t = xs
  | [], _, _, h => by simp at h
  | x :: xs, 0, t, h => by
      simp only [List.getElem?_cons_zero, Option.some.injEq] at h
      simp [List.set, h]
  | x :: xs, j + 1, t, h => by
      simp only [List.getElem?_cons_succ] at h
      simp [List.set, lset_get_self xs j t h]

theorem pyIdx_nonneg_inv (n : Nat) (i : Int) (j : Nat) (h0 : 0 ≤ i)
    (h : pyIdx n i = some j) : i < (n : Int) ∧ j = i.toNat := by
  by_cases h1 : i < (n : Int)
  · rw [pyIdx_of_nonneg n i h0 h1] at h
    cases h
    exact ⟨h1, rfl⟩
  · simp [pyIdx, h0, h1] at h

theorem pathNonneg_cons (t : Tok) (q : List Tok) :
    pathNonneg (t :: q) = true ↔
      (match t with | .key _ => True | .idx i => 0 ≤ i) ∧ pathNonneg q = true := by
  cases t <;> simp [pathNonneg, List.all]

/-! ### Unfolding lemmas for `get_at` / `set_at` / `cow_set_at` on a cons path -/

theorem get_at_cons_obj (kvs : List (String × JTree)) (k : String) (q : List Tok) :
    get_at (.obj kvs) (Tok.key k :: q) = (dlookup kvs k).bind fun v => get_at v q := rfl

theorem get_at_cons_arr (xs : List JTree) (i : Int) (q : List Tok) :
    get_at (.arr xs) (Tok.idx i :: q) =
      (pyIdx xs.length i).bind fun j => (xs[j]?).bind fun v => get_at v q := rfl

theorem set_at_cons_obj (kvs : List (String × JTree)) (k : String) (child : JTree)
    (q : List Tok) (v : JTree) (h : dlookup kvs k = some child) :
    set_at (.obj kvs) (Tok.key k :: q) v =
      (set_at child q v).map fun c => .obj (dset kvs k c) := by
  cases q with
  | nil => simp [set_at, setLast]
  | cons t2 rest => simp [set_at, h]

theorem set_at_cons_arr (xs : List JTree) (i : Int) (j : Nat) (child : JTree)
    (q : List Tok) (v : JTree)
    (hj : pyIdx xs.length i = some j) (hc : xs[j]? = some child) :
    set_at (.arr xs) (Tok.idx i :: q) v =
      (set_at child q v).map fun c => .arr (xs.set j c) := by
  cases q with
  | nil => simp [set_at, setLast, hj]
  | cons t2 rest => simp [set_at, hj, hc]

theorem cow_set_cons_obj (kvs : List (String × JTree)) (k : String) (child : JTree)
    (q : List Tok) (v : JTree) (h : dlookup kvs k = some child) :
    cow_set_at (.obj kvs) (Tok.key k :: q) v =
      (cow_set_at child q v).map fun c => .obj (dset kvs k c) := by
  simp [cow_set_at, h]

theorem cow_set_cons_arr (xs : List JTree) (i : Int) (child : JTree)
    (q : List Tok) (v : JTree) (h0 : 0 ≤ i) (hlt : i < (xs.length : Int))
    (hc : xs[i.toNat]? = some child) :
    cow_set_at (.arr xs) (Tok.idx i :: q) v =
      (cow_set_at child q v).map fun c => .arr (xs.set i.toNat c) := by
  simp [cow_set_at, h0, hlt, hc]

/-! ### Lens laws for `set_at` and `cow_set_at` on resolvable paths -/

theorem set_at_get (d : JTree) (p : List Tok) (t : JTree)
    (h : get_at d p = some t) : set_at d p t = some d := by
  induction p generalizing d with
  | nil =>
    simp only [get_at, Option.some.injEq] at h
    simp [set_at, h]
  | cons tok q ih =>
    cases d with
    | obj kvs =>
      cases tok with
      | key k =>
        rw [get_at_cons_obj] at h
        cases hl : dlookup kvs k with
        | none => rw [hl] at h; simp at h
        | some child =>
          rw [hl] at h
          simp only [Option.some_bind] at h
          rw [set_at_cons_obj kvs k child q t hl, ih child h]
          simp [dset_self kvs k child hl]
      | idx i => simp [get_at] at h
    | arr xs =>
      cases tok with
      | idx i =>
        rw [get_at_cons_arr] at h
        cases hj : pyIdx xs.length i with
        | none => rw [hj] at h; simp at h
        | some j =>
          rw [hj] at h
          simp only [Option.some_bind] at h
          cases hg : xs[j]? with
          | none => rw [hg] at h; simp at h
          | some child =>
            rw [hg] at h
            simp only [Option.some_bind] at h
            rw [set_at_cons_arr xs i j child q t hj hg, ih child h]
            simp [lset_get_self xs j child hg]
      | key k => simp [get_at] at h
    | null => simp [get_at] at h
    | bool b => simp [get_at] at h
    | num n => simp [get_at] at h
    | str s => simp [get_at] at h

theorem set_at_lens (d : JTree) (p : List Tok) (t v : JTree)
    (h : get_at d p = some t) :
    ∃ d', set_at d p v = some d' ∧ get_at d' p = some v ∧
      ∀ w : JTree, set_at d' p w = set_at d p w := by
  induction p generalizing d with
  | nil => exact ⟨v, rfl, rfl, fun w => rfl⟩
  | cons tok q ih =>
    cases d with
    | obj kvs =>
      cases tok with
      | key k =>
        rw [get_at_cons_obj] at h
        cases hl : dlookup kvs k with
        | none => rw [hl] at h; simp at h
        | some child =>
          rw [hl] at h
          simp only [Option.some_bind] at h
          obtain ⟨c, hc1, hc2, hc3⟩ := ih child h
          refine ⟨.obj (dset kvs k c), ?_, ?_, ?_⟩
          · rw [set_at_cons_obj kvs k child q v hl, hc1]
            rfl
          · rw [get_at_cons_obj, dlookup_dset_self]
            simpa using hc2
          · intro w
            rw [set_at_cons_obj (dset kvs k c) k c q w (dlookup_dset_self kvs k c),
                set_at_cons_obj kvs k child q w hl, hc3 w]
            cases set_at child q w <;> simp [dset_dset]
      | idx i => simp [get_at] at h
    | arr xs =>
      cases tok with
      | idx i =>
        rw [get_at_cons_arr] at h
        cases hj : pyIdx xs.length i with
        | none => rw [hj] at h; simp at h
        | some j =>
          rw [hj] at h
          simp only [Option.some_bind] at h
          cases hg : xs[j]? with
          | none => rw [hg] at h; simp at h
          | some child =>
            rw [hg] at h
            simp only [Option.some_bind] at h
            obtain ⟨c, hc1, hc2, hc3⟩ := ih child h
            have hjlt : j < xs.length := pyIdx_some _ _ _ hj
            have hj2 : pyIdx (xs.set j c).length i = some j := by
              rw [List.length_set]
              exact hj
            have hg2 : (xs.set j c)[j]? = some c := lget_set_self xs j c hjlt
            refine ⟨.arr (xs.set j c), ?_, ?_, ?_⟩
            · rw [set_at_cons_arr xs i j child q v hj hg, hc1]
              rfl
            · rw [get_at_cons_arr, hj2]
              simp only [Option.some_bind]
              rw [hg2]
              simpa using hc2
            · intro w
              rw [set_at_cons_arr (xs.set j c) i j c q w hj2 hg2,
                  set_at_cons_arr xs i j child q w hj hg, hc3 w]
              cases set_at child q w <;> simp [List.set_set]
      | key k => simp [get_at] at h
    | null => simp [get_at] at h
    | bool b => simp [get_at] at h
    | num n => simp [get_at] at h
    | str s => simp [get_at] at h

theorem cow_set_at_get (d : JTree) (p : List Tok) (t : JTree)
    (hp : pathNonneg p = true) (h : get_at d p = some t) : cow_set_at d p t = some d := by
  induction p generalizing d with
  | nil =>
    simp only [get_at, Option.some.injEq] at h
    simp [cow_set_at, h]
  | cons tok q ih =>
    have hq : pathNonneg q = true := ((pathNonneg_cons _ _).mp hp).2
    cases d with
    | obj kvs =>
      cases tok with
      | key k =>
        rw [get_at_cons_obj] at h
        cases hl : dlookup kvs k with
        | none => rw [hl] at h; simp at h
        | some child =>
          rw [hl] at h
          simp only [Option.some_bind] at h
          rw [cow_set_cons_obj kvs k child q t hl, ih child hq h]
          simp [dset_self kvs k child hl]
      | idx i => simp [get_at] at h
    | arr xs =>
      cases tok with
      | idx i =>
        have h0 : 0 ≤ i := by
          have := ((pathNonneg_cons _ _).mp hp).1
          simpa using this
        rw [get_at_cons_arr] at h
        cases hj : pyIdx xs.length i with
        | none => rw [hj] at h; simp at h
        | some j =>
          rw [hj] at h
          simp only [Option.some_bind] at h
          obtain ⟨hlt, hje⟩ := pyIdx_nonneg_inv _ _ _ h0 hj
          subst hje
          cases hg : xs[i.toNat]? with
          | none => rw [hg] at h; simp at h
          | some child =>
            rw [hg] at h
            simp only [Option.some_bind] at h
            rw [cow_set_cons_arr xs i child q t h0 hlt hg, ih child hq h]
            simp [lset_get_self xs i.toNat child hg]
      | key k => simp [get_at] at h
    | null => simp [get_at] at h
    | bool b => simp [get_at] at h
    | num n => simp [get_at] at h
    | str s => simp [get_at] at h

theorem cow_set_at_lens (d : JTree) (p : List Tok) (t v : JTree)
    (hp : pathNonneg p = true) (h : get_at d p = some t) :
    ∃ d', cow_set_at d p v = some d' ∧ get_at d' p = some v ∧
      ∀ w : JTree, cow_set_at d' p w = cow_set_at d p w := by
  induction p generalizing d with
  | nil => exact ⟨v, rfl, rfl, fun w => rfl⟩
  | cons tok q ih =>
    have hq : pathNonneg q = true := ((pathNonneg_cons _ _).mp hp).2
    cases d with
    | obj kvs =>
      cases tok with
      | key k =>
        rw [get_at_cons_obj] at h
        cases hl : dlookup kvs k with
        | none => rw [hl] at h; simp at h
        | some child =>
          rw [hl] at h
          simp only [Option.some_bind] at h
          obtain ⟨c, hc1, hc2, hc3⟩ := ih child hq h
          refine ⟨.obj (dset kvs k c), ?_, ?_, ?_⟩
          · rw [cow_set_cons_obj kvs k child q v hl, hc1]
            rfl
          · rw [get_at_cons_obj, dlookup_dset_self]
            simpa using hc2
          · intro w
            rw [cow_set_cons_obj (dset kvs k c) k c q w (dlookup_dset_self kvs k c),
                cow_set_cons_obj kvs k child q w hl, hc3 w]
            cases cow_set_at child q w <;> simp [dset_dset]
      | idx i => simp [get_at] at h
    | arr xs =>
      cases tok with
      | idx i =>
        have h0 : 0 ≤ i := by
          have := ((pathNonneg_cons _ _).mp hp).1
          simpa using this
        rw [get_at_cons_arr] at h
        cases hj : pyIdx xs.length i with
        | none => rw [hj] at h; simp at h
        | some j =>
          rw [hj] at h
          simp only [Option.some_bind] at h
          obtain ⟨hlt, hje⟩ := pyIdx_nonneg_inv _ _ _ h0 hj
          subst hje
          cases hg : xs[i.toNat]? with
          | none => rw [hg] at h; simp at h
          | some child =>
            rw [hg] at h
            simp only [Option.some_bind] at h
            obtain ⟨c, hc1, hc2, hc3⟩ := ih child hq h
            have hjlt : i.toNat < xs.length := pyIdx_some _ _ _ hj
            have hlt2 : i < ((xs.set i.toNat c).length : Int) := by
              rw [List.length_set]
              exact hlt
            have hg2 : (xs.set i.toNat c)[i.toNat]? = some c := lget_set_self xs i.toNat c hjlt
            refine ⟨.arr (xs.set i.toNat c), ?_, ?_, ?_⟩
            · rw [cow_set_cons_arr xs i child q v h0 hlt hg, hc1]
              rfl
            · rw [get_at_cons_arr, List.length_set, hj]
              simp only [Option.some_bind]
              rw [hg2]
              simpa using hc2
            · intro w
              rw [cow_set_cons_arr (xs.set i.toNat c) i c q w h0 hlt2 hg2,
                  cow_set_cons_arr xs i child q w h0 hlt hg, hc3 w]
              cases cow_set_at child q w <;> simp [List.set_set]
      | key k => simp [get_at] at h
    | null => simp [get_at] at h
    | bool b => simp [get_at] at h
    | num n => simp [get_at] at h
    | str s => simp [get_at] at h

/-! ### Insert / pop inverse lemmas on lists -/

theorem listInsertAt_zero {α : Type} (xs : List α) (v : α) :
    listInsertAt xs 0 v = v :: xs := by
  cases xs <;> rfl

theorem listInsertAt_length {α : Type} : ∀ (xs : List α) (j : Nat) (v : α),
    (listInsertAt xs j v).length = xs.length + 1
  | xs, 0, v => by simp [listInsertAt_zero]
  | [], _ + 1, _ => rfl
  | x :: xs, j + 1, v => by simp [listInsertAt, listInsertAt_length xs j v]

theorem listPopAt_insertAt {α : Type} : ∀ (xs : List α) (j : Nat) (v : α), j ≤ xs.length →
    listPopAt (listInsertAt xs j v) j = some (v, xs)
  | xs, 0, v, _ => by rw [listInsertAt_zero]; rfl
  | x :: xs, j + 1, v, h => by
      simp only [listInsertAt, listPopAt]
      rw [listPopAt_insertAt xs j v (by simpa using h)]
      rfl
  | [], j + 1, _, h => by simp at h

theorem listInsertAt_popAt {α : Type} : ∀ (xs ys : List α) (j : Nat) (v : α),
    listPopAt xs j = some (v, ys) → listInsertAt ys j v = xs
  | [], _, _, _, h => by simp [listPopAt] at h
  | x :: xs, ys, 0, v, h => by
      simp only [listPopAt, Option.some.injEq, Prod.mk.injEq] at h
      rw [← h.1, ← h.2]
      exact listInsertAt_zero xs x
  | x :: xs, ys, j + 1, v, h => by
      simp only [listPopAt] at h
      cases hp : listPopAt xs j with
      | none => rw [hp] at h; simp at h
      | some pr =>
          rw [hp] at h
          simp only [Option.map_some', Option.some.injEq, Prod.mk.injEq] at h
          obtain ⟨hv, hys⟩ := h
          rw [← hys, ← hv]
          simp only [listInsertAt]
          rw [listInsertAt_popAt xs pr.2 j pr.1 (by rw [hp])]

theorem listPopAt_some_of_lt {α : Type} : ∀ (xs : List α) (j : Nat), j < xs.length →
    ∃ v ys, listPopAt xs j = some (v, ys)
  | [], _, h => by simp at h
  | x :: xs, 0, _ => ⟨x, xs, rfl⟩
  | x :: xs, j + 1, h => by
      obtain ⟨v, ys, hp⟩ := listPopAt_some_of_lt xs j (by simpa using h)
      exact ⟨v, x :: ys, by simp [listPopAt, hp]⟩

theorem listPopAt_fst {α : Type} : ∀ (xs ys : List α) (j : Nat) (v : α),
    listPopAt xs j = some (v, ys) → xs[j]? = some v
  | [], _, _, _, h => by simp [listPopAt] at h
  | x :: xs, ys, 0, v, h => by
      simp only [listPopAt, Option.some.injEq, Prod.mk.injEq] at h
      simp [h.1]
  | x :: xs, ys, j + 1, v, h => by
      simp only [listPopAt] at h
      cases hp : listPopAt xs j with
      | none => rw [hp] at h; simp at h
      | some pr =>
          rw [hp] at h
          simp only [Option.map_some', Option.some.injEq, Prod.mk.injEq] at h
          simp only [List.getElem?_cons_succ]
          exact listPopAt_fst xs pr.2 j v (by rw [hp, ← h.1])

theorem listPopAt_length {α : Type} : ∀ (xs ys : List α) (j : Nat) (v : α),
    listPopAt xs j = some (v, ys) → ys.length + 1 = xs.length
  | [], _, _, _, h => by simp [listPopAt] at h
  | x :: xs, ys, 0, v, h => by
      simp only [listPopAt, Option.some.injEq, Prod.mk.injEq] at h
      rw [← h.2]
      simp
  | x :: xs, ys, j + 1, v, h => by
      simp only [listPopAt] at h
      cases hp : listPopAt xs j with
      | none => rw [hp] at h; simp at h
      | some pr =>
          rw [hp] at h
          simp only [Option.map_some', Option.some.injEq, Prod.mk.injEq] at h
          have := listPopAt_length xs pr.2 j pr.1 (by rw [hp])
          rw [← h.2]
          simp only [List.length_cons]
          omega

/-! ### Round trips for the exactly invertible patch types

`set`, `replace`, `insert`, `remove` and `move` have the same apply shape in
both appliers, differing only in the write-back primitive (`set_at` for the
mutable strategy, `cow_set_at` for copy-on-write).  `genApply` abstracts that
primitive so the round-trip argument is made once. -/

/-- Shared apply shape for set / replace / insert / remove / move,
parameterized by the write-back primitive. -/
def genApply (put : JTree → List Tok → JTree → Option JTree)
    (doc : JTree) (op : Operation) : Option JTree :=
  match op.patch_type with
  | .set | .replace => put doc op.path op.after
  | .insert =>
      match op.index with
      | none => none
      | some i =>
        (get_at doc op.path).bind fun cur =>
        match cur with
        | .arr xs =>
            put doc op.path (.arr (listInsertAt xs (pyInsertPos xs.length i) op.after))
        | _ => none
  | .remove =>
      match op.index with
      | none => none
      | some i =>
        (get_at doc op.path).bind fun cur =>
        match cur with
        | .arr xs =>
            (pyIdx xs.length i).bind fun j =>
            (listPopAt xs j).bind fun pr => put doc op.path (.arr pr.2)
        | _ => none
  | .move =>
      match op.from_index, op.to_index with
      | some f, some t =>
        (get_at doc op.path).bind fun cur =>
        match cur with
        | .arr xs =>
            (pyIdx xs.length f).bind fun jf =>
            (listPopAt xs jf).bind fun pr =>
            put doc op.path (.arr (listInsertAt pr.2 (pyInsertPos pr.2.length t) pr.1))
        | _ => none
      | _, _ => none
  | _ => none

theorem tree_apply_eq_gen (d : JTree) (op : Operation)
    (h : op.patch_type = .set ∨ op.patch_type = .replace ∨ op.patch_type = .insert ∨
         op.patch_type = .remove ∨ op.patch_type = .move) :
    TreeApplier.apply d op = genApply set_at d op := by
  obtain ⟨pt, path, before, after, index, fi, ti, ck⟩ := op
  rcases h with h | h | h | h | h <;> (cases h; rfl)

theorem imm_apply_eq_gen (d : JTree) (op : Operation)
    (h : op.patch_type = .set ∨ op.patch_type = .replace ∨ op.patch_type = .insert ∨
         op.patch_type = .remove ∨ op.patch_type = .move) :
    ImmutableTreeApplier.apply d op = genApply cow_set_at d op := by
  obtain ⟨pt, path, before, after, index, fi, ti, ck⟩ := op
  rcases h with h | h | h | h | h <;> (cases h; rfl)

theorem pyInsertPos_of_le (n : Nat) (i : Int) (h0 : 0 ≤ i) (h1 : i ≤ (n : Int)) :
    pyInsertPos n i = i.toNat := by
  have : ¬ i < 0 := by omega
  simp only [pyInsertPos, if_neg this]
  omega

theorem gen_roundtrip
    (put : JTree → List Tok → JTree → Option JTree)
    (hput_get : ∀ d p t, pathNonneg p = true → get_at d p = some t → put d p t = some d)
    (hput_lens : ∀ d p t v, pathNonneg p = true → get_at d p = some t →
      ∃ d', put d p v = some d' ∧ get_at d' p = some v ∧ ∀ w, put d' p w = put d p w)
    (d : JTree) (op : Operation)
    (hv : validFor d op = true)
    (ht : op.patch_type = .set ∨ op.patch_type = .replace ∨ op.patch_type = .insert ∨
          op.patch_type = .remove ∨ op.patch_type = .move) :
    ∃ d', genApply put d op = some d' ∧
          genApply put d' (TreeApplier.invert op) = some d := by
  obtain ⟨pt, path, before, after, index, fi, ti, ck⟩ := op
  rcases ht with ht | ht | ht | ht | ht <;> cases ht
  case _ =>
    -- set
    simp only [validFor, Bool.and_eq_true, beq_iff_eq] at hv
    obtain ⟨hp, hg⟩ := hv
    obtain ⟨d', h1, h2, h3⟩ := hput_lens d path before after hp hg
    refine ⟨d', h1, ?_⟩
    simp only [TreeApplier.invert, genApply]
    rw [h3 before]
    exact hput_get d path before hp hg
  case _ =>
    -- replace
    simp only [validFor, Bool.and_eq_true, beq_iff_eq] at hv
    obtain ⟨hp, hg⟩ := hv
    obtain ⟨d', h1, h2, h3⟩ := hput_lens d path before after hp hg
    refine ⟨d', h1, ?_⟩
    simp only [TreeApplier.invert, genApply]
    rw [h3 before]
    exact hput_get d path before hp hg
  case _ =>
    -- insert
    simp only [validFor, Bool.and_eq_true] at hv
    obtain ⟨hp, hv⟩ := hv
    cases index with
    | none => simp at hv
    | some i =>
      cases hg : get_at d path with
      | none => rw [hg] at hv; simp at hv
      | some cur =>
        rw [hg] at hv
        cases cur <;> try exact Bool.noConfusion hv
        case arr xs =>
        simp only [Bool.and_eq_true, decide_eq_true_eq] at hv
        obtain ⟨h0, hle⟩ := hv
        have hpos : pyInsertPos xs.length i = i.toNat := pyInsertPos_of_le _ _ h0 hle
        have htn : i.toNat ≤ xs.length := by omega
        obtain ⟨d', h1, h2, h3⟩ :=
          hput_lens d path (.arr xs) (.arr (listInsertAt xs i.toNat after)) hp hg
        refine ⟨d', ?_, ?_⟩
        · simp only [genApply, hg, Option.some_bind, hpos]
          exact h1
        · simp only [TreeApplier.invert, genApply, h2, Option.some_bind]
          have hlen : (listInsertAt xs i.toNat after).length = xs.length + 1 :=
            listInsertAt_length xs i.toNat after
          have hidx : pyIdx (listInsertAt xs i.toNat after).length i = some i.toNat := by
            rw [hlen]
            exact pyIdx_of_nonneg _ _ h0 (by omega)
          rw [hidx]
          simp only [Option.some_bind]
          rw [listPopAt_insertAt xs i.toNat after htn]
          simp only [Option.some_bind]
          rw [h3 (.arr xs)]
          exact hput_get d path (.arr xs) hp hg
  case _ =>
    -- remove
    simp only [validFor, Bool.and_eq_true] at hv
    obtain ⟨hp, hv⟩ := hv
    cases index with
    | none => simp at hv
    | some i =>
      cases hg : get_at d path with
      | none => rw [hg] at hv; simp at hv
      | some cur =>
        rw [hg] at hv
        cases cur <;> try exact Bool.noConfusion hv
        case arr xs =>
        simp only [Bool.and_eq_true, decide_eq_true_eq, beq_iff_eq] at hv
        obtain ⟨⟨h0, hlt⟩, hbef⟩ := hv
        have hjlt : i.toNat < xs.length := by omega
        obtain ⟨v, ys, hpop⟩ := listPopAt_some_of_lt xs i.toNat hjlt
        have hv_eq : v = before := by
          have := listPopAt_fst xs ys i.toNat v hpop
          rw [this] at hbef
          exact (Option.some.injEq _ _ ▸ hbef)
        subst hv_eq
        have hylen : ys.length + 1 = xs.length := listPopAt_length xs ys i.toNat v hpop
        obtain ⟨d', h1, h2, h3⟩ := hput_lens d path (.arr xs) (.arr ys) hp hg
        refine ⟨d', ?_, ?_⟩
        · simp only [genApply, hg, Option.some_bind]
          rw [pyIdx_of_nonneg _ _ h0 hlt]
          simp only [Option.some_bind]
          rw [hpop]
          simp only [Option.some_bind]
          exact h1
        · simp only [TreeApplier.invert, genApply, h2, Option.some_bind]
          have hpos : pyInsertPos ys.length i = i.toNat :=
            pyInsertPos_of_le _ _ h0 (by omega)
          rw [hpos, listInsertAt_popAt xs ys i.toNat v hpop, h3 (.arr xs)]
          exact hput_get d path (.arr xs) hp hg
  case _ =>
    -- move
    simp only [validFor, Bool.and_eq_true] at hv
    obtain ⟨hp, hv⟩ := hv
    cases fi with
    | none => simp at hv
    | some f =>
      cases ti with
      | none => simp at hv
      | some t =>
        cases hg : get_at d path with
        | none => rw [hg] at hv; simp at hv
        | some cur =>
          rw [hg] at hv
          cases cur <;> try exact Bool.noConfusion hv
          case arr xs =>
          simp only [Bool.and_eq_true, decide_eq_true_eq, beq_iff_eq] at hv
          obtain ⟨⟨⟨⟨hf0, hflt⟩, ht0⟩, htlt⟩, hbef⟩ := hv
          have hffin : f.toNat < xs.length := by omega
          obtain ⟨v, ys, hpop⟩ := listPopAt_some_of_lt xs f.toNat hffin
          have hylen : ys.length + 1 = xs.length := listPopAt_length xs ys f.toNat v hpop
          have hpos_t : pyInsertPos ys.length t = t.toNat :=
            pyInsertPos_of_le _ _ ht0 (by omega)
          have htn_le : t.toNat ≤ ys.length := by omega
          have hzlen : (listInsertAt ys t.toNat v).length = xs.length := by
            rw [listInsertAt_length]
            omega
          obtain ⟨d', h1, h2, h3⟩ :=
            hput_lens d path (.arr xs) (.arr (listInsertAt ys t.toNat v)) hp hg
          refine ⟨d', ?_, ?_⟩
          · simp only [genApply, hg, Option.some_bind]
            rw [pyIdx_of_nonneg _ _ hf0 hflt]
            simp only [Option.some_bind]
            rw [hpop]
            simp only [Option.some_bind, hpos_t]
            exact h1
          · simp only [TreeApplier.invert, genApply, h2, Option.some_bind]
            have hidx_t : pyIdx (listInsertAt ys t.toNat v).length t = some t.toNat := by
              rw [hzlen]
              exact pyIdx_of_nonneg _ _ ht0 htlt
            rw [hidx_t]
            simp only [Option.some_bind]
            rw [listPopAt_insertAt ys t.toNat v htn_le]
            simp only [Option.some_bind]
            have hpos_f : pyInsertPos ys.length f = f.toNat :=
              pyInsertPos_of_le _ _ hf0 (by omega)
            rw [hpos_f, listInsertAt_popAt xs ys f.toNat v hpop]
            rw [h3 (.arr xs)]
            exact hput_get d path (.arr xs) hp hg

/-! ### Reflexivity of Python equality on well-formed trees -/

theorem pyEqObj_of_entries : ∀ (kvs ys : List (String × JTree)),
    (∀ k1 v1, (k1, v1) ∈ kvs → ∃ w, dlookup ys k1 = some w ∧ pyEq v1 w = true) →
    pyEqObj kvs ys = true
  | [], _, _ => rfl
  | (k, v) :: rest, ys, h => by
      obtain ⟨w, hw, he⟩ := h k v (List.mem_cons_self _ _)
      have hrest := pyEqObj_of_entries rest ys
        (fun k1 v1 hm => h k1 v1 (List.mem_cons_of_mem _ hm))
      simp [pyEqObj, hw, he, hrest]

theorem pyEqList_of_forall : ∀ (xs : List JTree),
    (∀ x ∈ xs, pyEq x x = true) → pyEqList xs xs = true
  | [], _ => rfl
  | x :: rest, h => by
      simp only [pyEqList, Bool.and_eq_true]
      exact ⟨h x (List.mem_cons_self _ _),
             pyEqList_of_forall rest (fun y hy => h y (List.mem_cons_of_mem _ hy))⟩

theorem wfL_mem : ∀ (xs : List JTree) (x : JTree), wfL xs = true → x ∈ xs → wfT x = true
  | [], _, _, hm => by simp at hm
  | y :: rest, x, hw, hm => by
      simp only [wfL, Bool.and_eq_true] at hw
      rcases List.mem_cons.mp hm with h | h
      · rw [h]
        exact hw.1
      · exact wfL_mem rest x hw.2 h

theorem wfKVs_mem : ∀ (kvs : List (String × JTree)) (k : String) (v : JTree),
    wfKVs kvs = true → (k, v) ∈ kvs → wfT v = true
  | [], _, _, _, hm => by simp at hm
  | (k1, v1) :: rest, k, v, hw, hm => by
      simp only [wfKVs, Bool.and_eq_true] at hw
      rcases List.mem_cons.mp hm with h | h
      · obtain ⟨e1, e2⟩ := Prod.mk.injEq .. ▸ h
        rw [e2]
        exact hw.1
      · exact wfKVs_mem rest k v hw.2 h

theorem pyEq_refl_wf_aux : ∀ (n : Nat) (t : JTree), sizeOf t ≤ n → wfT t = true →
    pyEq t t = true := by
  intro n
  induction n with
  | zero =>
    intro t hs _
    cases t <;> simp at hs
  | succ n ih =>
    intro t hs hw
    cases t with
    | null => rfl
    | bool b => simp [pyEq]
    | num m => simp [pyEq]
    | str s => simp [pyEq]
    | arr xs =>
      simp only [wfT] at hw
      have hsz : sizeOf xs ≤ n := by
        simp only [JTree.arr.sizeOf_spec] at hs
        omega
      simp only [pyEq]
      refine pyEqList_of_forall xs (fun x hx => ?_)
      have hlt : sizeOf x < sizeOf xs := List.sizeOf_lt_of_mem hx
      exact ih x (by omega) (wfL_mem xs x hw hx)
    | obj kvs =>
      rw [wfT] at hw
      simp only [Bool.and_eq_true] at hw
      have hsz : sizeOf kvs ≤ n := by
        simp only [JTree.obj.sizeOf_spec] at hs
        omega
      simp only [pyEq, Bool.and_eq_true, beq_self_eq_true, true_and]
      refine pyEqObj_of_entries kvs kvs (fun k1 v1 hm => ?_)
      have hlt : sizeOf (k1, v1) < sizeOf kvs := List.sizeOf_lt_of_mem hm
      have hlt2 : sizeOf v1 < sizeOf (k1, v1) := by
        simp only [Prod.mk.sizeOf_spec]
        omega
      exact ⟨v1, dlookup_of_mem kvs k1 v1 hw.1 hm,
             ih v1 (by omega) (wfKVs_mem kvs k1 v1 hw.2 hm)⟩

/-- Python `==` is reflexive on well-formed trees. -/
theorem pyEq_refl_wf (t : JTree) (h : wfT t = true) : pyEq t t = true :=
  pyEq_refl_wf_aux (sizeOf t) t le_rfl h

/-! ### Well-formedness of resolved subtrees -/

theorem dlookup_mem : ∀ (kvs : List (String × JTree)) (k : String) (v : JTree),
    dlookup kvs k = some v → (k, v) ∈ kvs
  | [], _, _, h => by simp [dlookup] at h
  | (k1, v1) :: rest, k, v, h => by
      by_cases h1 : k1 = k
      · subst h1
        simp [dlookup] at h
        rw [← h]
        exact List.mem_cons_self _ _
      · simp only [dlookup, if_neg h1] at h
        exact List.mem_cons_of_mem _ (dlookup_mem rest k v h)

theorem lget_mem {α : Type} : ∀ (xs : List α) (j : Nat) (v : α),
    xs[j]? = some v → v ∈ xs
  | [], _, _, h => by simp at h
  | x :: xs, 0, v, h => by
      simp only [List.getElem?_cons_zero, Option.some.injEq] at h
      rw [← h]
      exact List.mem_cons_self _ _
  | x :: xs, j + 1, v, h => by
      simp only [List.getElem?_cons_succ] at h
      exact List.mem_cons_of_mem _ (lget_mem xs j v h)

theorem wfT_get_at (d : JTree) (p : List Tok) (t : JTree)
    (hw : wfT d = true) (h : get_at d p = some t) : wfT t = true := by
  induction p generalizing d with
  | nil =>
    simp only [get_at, Option.some.injEq] at h
    rw [← h]
    exact hw
  | cons tok q ih =>
    cases d with
    | obj kvs =>
      cases tok with
      | key k =>
        rw [get_at_cons_obj] at h
        cases hl : dlookup kvs k with
        | none => rw [hl] at h; simp at h
        | some child =>
          rw [hl] at h
          simp only [Option.some_bind] at h
          rw [wfT] at hw
          simp only [Bool.and_eq_true] at hw
          exact ih child (wfKVs_mem kvs k child hw.2 (dlookup_mem kvs k child hl)) h
      | idx i => simp [get_at] at h
    | arr xs =>
      cases tok with
      | idx i =>
        rw [get_at_cons_arr] at h
        cases hj : pyIdx xs.length i with
        | none => rw [hj] at h; simp at h
        | some j =>
          rw [hj] at h
          simp only [Option.some_bind] at h
          cases hg : xs[j]? with
          | none => rw [hg] at h; simp at h
          | some child =>
            rw [hg] at h
            simp only [Option.some_bind] at h
            simp only [wfT] at hw
            exact ih child (wfL_mem xs child hw (lget_mem xs j child hg)) h
      | key k => simp [get_at] at h
    | null => simp [get_at] at h
    | bool b => simp [get_at] at h
    | num n => simp [get_at] at h
    | str s => simp [get_at] at h

/-! ### Python-equality congruence for single-entry updates -/

theorem mem_dset : ∀ (kvs : List (String × JTree)) (k : String) (c : JTree)
    (k1 : String) (v1 : JTree),
    (k1, v1) ∈ dset kvs k c → (k1 = k ∧ v1 = c) ∨ (k1, v1) ∈ kvs
  | [], k, c, k1, v1, hm => by
      simp [dset] at hm
      exact Or.inl ⟨hm.1, hm.2⟩
  | (k2, w) :: rest, k, c, k1, v1, hm => by
      by_cases h2 : k2 = k
      · subst h2
        simp only [dset, if_pos rfl] at hm
        rcases List.mem_cons.mp hm with h | h
        · obtain ⟨e1, e2⟩ := Prod.mk.injEq .. ▸ h
          exact Or.inl ⟨e1, e2⟩
        · exact Or.inr (List.mem_cons_of_mem _ h)
      · simp only [dset, if_neg h2] at hm
        rcases List.mem_cons.mp hm with h | h
        · exact Or.inr (List.mem_cons.mpr (Or.inl h))
        · rcases mem_dset rest k c k1 v1 h with h3 | h3
          · exact Or.inl h3
          · exact Or.inr (List.mem_cons_of_mem _ h3)

theorem mem_dpop : ∀ (kvs : List (String × JTree)) (k k1 : String) (v1 : JTree),
    (k1, v1) ∈ dpop kvs k → (k1, v1) ∈ kvs
  | [], _, _, _, hm => by simp [dpop] at hm
  | (k2, w) :: rest, k, k1, v1, hm => by
      by_cases h2 : k2 = k
      · subst h2
        simp only [dpop, if_pos rfl] at hm
        exact List.mem_cons_of_mem _ hm
      · simp only [dpop, if_neg h2] at hm
        rcases List.mem_cons.mp hm with h | h
        · exact List.mem_cons.mpr (Or.inl h)
        · exact List.mem_cons_of_mem _ (mem_dpop rest k k1 v1 h)

theorem pyEqList_refl_wf (xs : List JTree) (hw : wfL xs = true) :
    pyEqList xs xs = true :=
  pyEqList_of_forall xs (fun x hx => pyEq_refl_wf x (wfL_mem xs x hw hx))

/-- Updating one dict entry with a Python-equal value gives a Python-equal
dict. -/
theorem pyEq_obj_update (kvs : List (String × JTree)) (k : String) (child c : JTree)
    (hnd : keysNodup (kvs.map Prod.fst) = true)
    (hwf : wfKVs kvs = true)
    (hl : dlookup kvs k = some child)
    (he : pyEq c child = true) :
    pyEq (.obj (dset kvs k c)) (.obj kvs) = true := by
  simp only [pyEq, Bool.and_eq_true]
  refine ⟨?_, ?_⟩
  · rw [dset_length_mem kvs k c (by simp [dmem, hl])]
    simp
  · refine pyEqObj_of_entries _ kvs (fun k1 v1 hm => ?_)
    rcases mem_dset kvs k c k1 v1 hm with ⟨e1, e2⟩ | h
    · subst e1
      subst e2
      exact ⟨child, hl, he⟩
    · exact ⟨v1, dlookup_of_mem kvs k1 v1 hnd h,
             pyEq_refl_wf v1 (wfKVs_mem kvs k1 v1 hwf h)⟩

/-- Popping a key and re-inserting its old value (which lands at the end of
the insertion order) gives a Python-equal dict. -/
theorem pyEq_obj_restore (kvs : List (String × JTree)) (k : String) (v : JTree)
    (hnd : keysNodup (kvs.map Prod.fst) = true)
    (hwf : wfKVs kvs = true)
    (hl : dlookup kvs k = some v) :
    pyEq (.obj (dset (dpop kvs k) k v)) (.obj kvs) = true := by
  have hnone : dlookup (dpop kvs k) k = none := dlookup_dpop_none kvs k hnd
  rw [dset_append_of_not_mem _ _ _ hnone]
  simp only [pyEq, Bool.and_eq_true]
  refine ⟨?_, ?_⟩
  · have := dpop_length_mem kvs k (by simp [dmem, hl])
    simp only [List.length_append, List.length_cons, List.length_nil, beq_iff_eq]
    omega
  · refine pyEqObj_of_entries _ kvs (fun k1 v1 hm => ?_)
    rcases List.mem_append.mp hm with h | h
    · have hmem : (k1, v1) ∈ kvs := mem_dpop kvs k k1 v1 h
      exact ⟨v1, dlookup_of_mem kvs k1 v1 hnd hmem,
             pyEq_refl_wf v1 (wfKVs_mem kvs k1 v1 hwf hmem)⟩
    · simp only [List.mem_singleton, Prod.mk.injEq] at h
      obtain ⟨e1, e2⟩ := h
      subst e1
      subst e2
      exact ⟨v1, hl, pyEq_refl_wf v1
        (wfKVs_mem kvs k1 v1 hwf (dlookup_mem kvs k1 v1 hl))⟩

/-- Updating one list position with a Python-equal value gives a Python-equal
list. -/
theorem pyEqList_set : ∀ (xs : List JTree) (j : Nat) (child c : JTree),
    wfL xs = true → xs[j]? = some child → pyEq c child = true →
    pyEqList (xs.set j c) xs = true
  | [], _, _, _, _, h, _ => by simp at h
  | x :: rest, 0, child, c, hw, h, he => by
      simp only [List.getElem?_cons_zero, Option.some.injEq] at h
      simp only [wfL, Bool.and_eq_true] at hw
      simp only [List.set, pyEqList, Bool.and_eq_true]
      exact ⟨h ▸ he, pyEqList_refl_wf rest hw.2⟩
  | x :: rest, j + 1, child, c, hw, h, he => by
      simp only [List.getElem?_cons_succ] at h
      simp only [wfL, Bool.and_eq_true] at hw
      simp only [List.set, pyEqList, Bool.and_eq_true]
      exact ⟨pyEq_refl_wf x hw.1, pyEqList_set rest j child c hw.2 h he⟩

/-! ### Path decomposition for `get_at` and `del_at` -/

theorem get_at_append (d : JTree) (p q : List Tok) :
    get_at d (p ++ q) = (get_at d p).bind fun t => get_at t q := by
  induction p generalizing d with
  | nil => simp [get_at]
  | cons tok rest ih =>
    cases d with
    | obj kvs =>
      cases tok with
      | key k =>
        rw [List.cons_append, get_at_cons_obj, get_at_cons_obj]
        cases dlookup kvs k <;> simp [ih]
      | idx i => simp [get_at]
    | arr xs =>
      cases tok with
      | idx i =>
        rw [List.cons_append, get_at_cons_arr, get_at_cons_arr]
        cases pyIdx xs.length i with
        | none => simp
        | some j =>
          simp only [Option.some_bind]
          cases xs[j]? <;> simp [ih]
      | key k => simp [get_at]
    | null => simp [get_at]
    | bool b => simp [get_at]
    | num n => simp [get_at]
    | str s => simp [get_at]

theorem del_at_cons_obj (kvs : List (String × JTree)) (k0 : String) (child : JTree)
    (q : List Tok) (hq : q ≠ []) (hl : dlookup kvs k0 = some child) :
    del_at (.obj kvs) (Tok.key k0 :: q) =
      (del_at child q).map fun c => .obj (dset kvs k0 c) := by
  obtain ⟨q0, qs, rfl⟩ : ∃ q0 qs, q = q0 :: qs := by
    cases q with
    | nil => exact absurd rfl hq
    | cons q0 qs => exact ⟨q0, qs, rfl⟩
  simp only [del_at, List.getLast?_cons_cons]
  cases hlast : (q0 :: qs).getLast? with
  | none => rfl
  | some tok =>
    cases tok with
    | idx i => rfl
    | key k =>
      have hdrop : (Tok.key k0 :: q0 :: qs).dropLast = Tok.key k0 :: (q0 :: qs).dropLast := by
        simp [List.dropLast]
      rw [hdrop, get_at_cons_obj, hl]
      simp only [Option.some_bind]
      cases hp : get_at child (q0 :: qs).dropLast with
      | none => rfl
      | some parent =>
        cases parent with
        | obj kvsP =>
          simp only [Option.some_bind]
          rw [set_at_cons_obj kvs k0 child _ _ hl]
        | null => rfl
        | bool b => rfl
        | num n => rfl
        | str s => rfl
        | arr xs => rfl

theorem del_at_cons_arr (xs : List JTree) (i : Int) (j : Nat) (child : JTree)
    (q : List Tok) (hq : q ≠ []) (hj : pyIdx xs.length i = some j)
    (hc : xs[j]? = some child) :
    del_at (.arr xs) (Tok.idx i :: q) =
      (del_at child q).map fun c => .arr (xs.set j c) := by
  obtain ⟨q0, qs, rfl⟩ : ∃ q0 qs, q = q0 :: qs := by
    cases q with
    | nil => exact absurd rfl hq
    | cons q0 qs => exact ⟨q0, qs, rfl⟩
  simp only [del_at, List.getLast?_cons_cons]
  cases hlast : (q0 :: qs).getLast? with
  | none => rfl
  | some tok =>
    cases tok with
    | idx i2 => rfl
    | key k =>
      have hdrop : (Tok.idx i :: q0 :: qs).dropLast = Tok.idx i :: (q0 :: qs).dropLast := by
        simp [List.dropLast]
      rw [hdrop, get_at_cons_arr, hj]
      simp only [Option.some_bind]
      rw [hc]
      simp only [Option.some_bind]
      cases hp : get_at child (q0 :: qs).dropLast with
      | none => rfl
      | some parent =>
        cases parent with
        | obj kvsP =>
          simp only [Option.some_bind]
          rw [set_at_cons_arr xs i j child _ _ hj hc]
        | null => rfl
        | bool b => rfl
        | num n => rfl
        | str s => rfl
        | arr ys => rfl

/-- Round trip for `del` under the mutable applier: deleting a resolvable dict
key and then re-setting the recorded value restores a Python-equal tree (the
restored key moves to the end of the dict insertion order, which Python `==`
does not observe). -/
theorem del_roundtrip_core : ∀ (pp : List Tok) (d : JTree) (k : String) (v : JTree),
    wfT d = true →
    get_at d (pp ++ [Tok.key k]) = some v →
    ∃ d' d'', del_at d (pp ++ [Tok.key k]) = some d' ∧
      set_at d' (pp ++ [Tok.key k]) v = some d'' ∧ pyEq d'' d = true := by
  intro pp
  induction pp with
  | nil =>
    intro d k v hw hg
    cases d with
    | obj kvs =>
      rw [List.nil_append, get_at_cons_obj] at hg
      cases hl : dlookup kvs k with
      | none => rw [hl] at hg; simp at hg
      | some child =>
        rw [hl] at hg
        simp only [Option.some_bind, get_at, Option.some.injEq] at hg
        subst hg
        rw [wfT] at hw
        simp only [Bool.and_eq_true] at hw
        refine ⟨.obj (dpop kvs k), .obj (dset (dpop kvs k) k child), ?_, ?_, ?_⟩
        · simp [del_at, get_at, set_at]
        · simp [set_at, setLast]
        · exact pyEq_obj_restore kvs k child hw.1 hw.2 hl
    | null => simp [get_at] at hg
    | bool b => simp [get_at] at hg
    | num n => simp [get_at] at hg
    | str s => simp [get_at] at hg
    | arr xs => simp [get_at] at hg
  | cons tok pp ih =>
    intro d k v hw hg
    simp only [List.cons_append] at hg ⊢
    have hqne : pp ++ [Tok.key k] ≠ [] := by simp
    cases d with
    | obj kvs0 =>
      cases tok with
      | key k0 =>
        rw [get_at_cons_obj] at hg
        cases hl : dlookup kvs0 k0 with
        | none => rw [hl] at hg; simp at hg
        | some child =>
          rw [hl] at hg
          simp only [Option.some_bind] at hg
          rw [wfT] at hw
          simp only [Bool.and_eq_true] at hw
          have hwc : wfT child = true :=
            wfKVs_mem kvs0 k0 child hw.2 (dlookup_mem kvs0 k0 child hl)
          obtain ⟨c1, c2, hd1, hd2, hd3⟩ := ih child k v hwc hg
          refine ⟨.obj (dset kvs0 k0 c1), .obj (dset kvs0 k0 c2), ?_, ?_, ?_⟩
          · rw [del_at_cons_obj kvs0 k0 child _ hqne hl, hd1]
            rfl
          · rw [set_at_cons_obj (dset kvs0 k0 c1) k0 c1 _ _ (dlookup_dset_self kvs0 k0 c1),
                hd2]
            simp [dset_dset]
          · exact pyEq_obj_update kvs0 k0 child c2 hw.1 hw.2 hl hd3
      | idx i => simp [get_at] at hg
    | arr xs =>
      cases tok with
      | idx i =>
        rw [get_at_cons_arr] at hg
        cases hj : pyIdx xs.length i with
        | none => rw [hj] at hg; simp at hg
        | some j =>
          rw [hj] at hg
          simp only [Option.some_bind] at hg
          cases hc : xs[j]? with
          | none => rw [hc] at hg; simp at hg
          | some child =>
            rw [hc] at hg
            simp only [Option.some_bind] at hg
            rw [wfT] at hw
            have hwc : wfT child = true := wfL_mem xs child hw (lget_mem xs j child hc)
            obtain ⟨c1, c2, hd1, hd2, hd3⟩ := ih child k v hwc hg
            have hjlt : j < xs.length := pyIdx_some _ _ _ hj
            have hj1 : pyIdx (xs.set j c1).length i = some j := by
              rw [List.length_set]
              exact hj
            have hc1 : (xs.set j c1)[j]? = some c1 := lget_set_self xs j c1 hjlt
            refine ⟨.arr (xs.set j c1), .arr (xs.set j c2), ?_, ?_, ?_⟩
            · rw [del_at_cons_arr xs i j child _ hqne hj hc, hd1]
              rfl
            · rw [set_at_cons_arr (xs.set j c1) i j c1 _ _ hj1 hc1, hd2]
              simp [List.set_set]
            · simp only [pyEq]
              exact pyEqList_set xs j child c2 hw hc hd3
      | key k0 => simp [get_at] at hg
    | null => simp [get_at] at hg
    | bool b => simp [get_at] at hg
    | num n => simp [get_at] at hg
    | str s => simp [get_at] at hg

/-! ### Merge re-application lemmas -/

theorem dmem_iff (kvs : List (String × JTree)) (k : String) :
    dmem kvs k = true ↔ k ∈ kvs.map Prod.fst := by
  induction kvs with
  | nil => simp [dmem, dlookup]
  | cons kv rest ih =>
    obtain ⟨k1, v⟩ := kv
    by_cases h : k1 = k
    · subst h
      simp [dmem, dlookup]
    · simp only [dmem, dlookup, if_neg h, List.map_cons, List.mem_cons]
      constructor
      · intro hib
        exact Or.inr (ih.mp hib)
      · intro hor
        rcases hor with e | hmem
        · exact absurd e.symm h
        · exact ih.mpr hmem

theorem dset_keys_of_mem : ∀ (kvs : List (String × JTree)) (k : String) (v : JTree),
    dmem kvs k = true → (dset kvs k v).map Prod.fst = kvs.map Prod.fst
  | [], k, v, h => by simp [dmem, dlookup] at h
  | (k1, w) :: rest, k, v, h => by
      by_cases h1 : k1 = k
      · simp [dset, h1]
      · simp only [dmem, dlookup, if_neg h1] at h
        simp [dset, h1, dset_keys_of_mem rest k v h]

theorem dset_cons_ne (k1 : String) (w : JTree) (m : List (String × JTree))
    (k : String) (v : JTree) (h : k1 ≠ k) :
    dset ((k1, w) :: m) k v = (k1, w) :: dset m k v := by
  simp [dset, h]

theorem dmerge_keys_of_subset : ∀ (akvs ckvs : List (String × JTree)),
    (∀ k1 ∈ akvs.map Prod.fst, dmem ckvs k1 = true) →
    (dmerge ckvs akvs).map Prod.fst = ckvs.map Prod.fst
  | [], ckvs, _ => rfl
  | (k, v) :: rest, ckvs, h => by
      rw [show dmerge ckvs ((k, v) :: rest) = dmerge (dset ckvs k v) rest from rfl]
      have hk : dmem ckvs k = true := h k (by simp)
      have hkeys := dset_keys_of_mem ckvs k v hk
      rw [dmerge_keys_of_subset rest (dset ckvs k v) ?_, hkeys]
      intro k1 hk1
      rw [dmem_iff, hkeys, ← dmem_iff]
      exact h k1 (by simp [hk1])

theorem dmerge_cons_not_mem : ∀ (rest : List (String × JTree)) (k : String) (v : JTree)
    (m : List (String × JTree)), ¬ k ∈ rest.map Prod.fst →
    dmerge ((k, v) :: m) rest = (k, v) :: dmerge m rest
  | [], _, _, _, _ => rfl
  | (k2, v2) :: rest, k, v, m, h => by
      simp only [List.map_cons, List.mem_cons, not_or] at h
      rw [show dmerge ((k, v) :: m) ((k2, v2) :: rest) =
            dmerge (dset ((k, v) :: m) k2 v2) rest from rfl,
          dset_cons_ne k v m k2 v2 h.1,
          dmerge_cons_not_mem rest k v (dset m k2 v2) h.2]
      rfl

/-- Merging a dict with exactly its own key list (in order) back over a nodup
dict restores the dict exactly. -/
theorem dmerge_restore : ∀ (ckvs m : List (String × JTree)),
    keysNodup (ckvs.map Prod.fst) = true →
    m.map Prod.fst = ckvs.map Prod.fst →
    dmerge m ckvs = ckvs
  | [], m, _, hkeys => by
      cases m with
      | nil => rfl
      | cons a b => simp at hkeys
  | (k, v) :: rest, m, hnd, hkeys => by
      cases m with
      | nil => simp at hkeys
      | cons kv m2 =>
        obtain ⟨k1, w⟩ := kv
        simp only [List.map_cons, List.cons.injEq] at hkeys
        obtain ⟨e1, e2⟩ := hkeys
        subst e1
        rw [List.map_cons, keysNodup_cons] at hnd
        rw [show dmerge ((k1, w) :: m2) ((k1, v) :: rest) =
              dmerge (dset ((k1, w) :: m2) k1 v) rest from rfl,
            show dset ((k1, w) :: m2) k1 v = (k1, v) :: m2 from by simp [dset],
            dmerge_cons_not_mem rest k1 v m2 hnd.1,
            dmerge_restore rest m2 hnd.2 e2]

/-! ### Assembling the round-trip facts per applier -/

theorem invert_exact_class (op : Operation)
    (ht : op.patch_type = .set ∨ op.patch_type = .replace ∨ op.patch_type = .insert ∨
          op.patch_type = .remove ∨ op.patch_type = .move) :
    (TreeApplier.invert op).patch_type = .set ∨
    (TreeApplier.invert op).patch_type = .replace ∨
    (TreeApplier.invert op).patch_type = .insert ∨
    (TreeApplier.invert op).patch_type = .remove ∨
    (TreeApplier.invert op).patch_type = .move := by
  obtain ⟨pt, path, before, after, index, fi, ti, ck⟩ := op
  rcases ht with h | h | h | h | h <;> cases h <;> simp [TreeApplier.invert]

theorem exact_roundtrip_tree (d : JTree) (op : Operation)
    (hv : validFor d op = true)
    (ht : op.patch_type = .set ∨ op.patch_type = .replace ∨ op.patch_type = .insert ∨
          op.patch_type = .remove ∨ op.patch_type = .move) :
    ∃ d', TreeApplier.apply d op = some d' ∧
          TreeApplier.apply d' (TreeApplier.invert op) = some d := by
  obtain ⟨d', h1, h2⟩ := gen_roundtrip set_at
    (fun d p t _ hg => set_at_get d p t hg)
    (fun d p t v _ hg => set_at_lens d p t v hg) d op hv ht
  refine ⟨d', ?_, ?_⟩
  · rw [tree_apply_eq_gen d op ht]
    exact h1
  · rw [tree_apply_eq_gen d' (TreeApplier.invert op) (invert_exact_class op ht)]
    exact h2

theorem exact_roundtrip_imm (d : JTree) (op : Operation)
    (hv : validFor d op = true)
    (ht : op.patch_type = .set ∨ op.patch_type = .replace ∨ op.patch_type = .insert ∨
          op.patch_type = .remove ∨ op.patch_type = .move) :
    ∃ d', ImmutableTreeApplier.apply d op = some d' ∧
          ImmutableTreeApplier.apply d' (ImmutableTreeApplier.invert op) = some d := by
  obtain ⟨d', h1, h2⟩ := gen_roundtrip cow_set_at
    (fun d p t hp hg => cow_set_at_get d p t hp hg)
    (fun d p t v hp hg => cow_set_at_lens d p t v hp hg) d op hv ht
  refine ⟨d', ?_, ?_⟩
  · rw [imm_apply_eq_gen d op ht]
    exact h1
  · rw [show ImmutableTreeApplier.invert op = TreeApplier.invert op from rfl,
        imm_apply_eq_gen d' (TreeApplier.invert op) (invert_exact_class op ht)]
    exact h2

theorem patch_class_of_ne (op : Operation) (hm : op.patch_type ≠ .merge)
    (hd : op.patch_type ≠ .del) :
    op.patch_type = .set ∨ op.patch_type = .replace ∨ op.patch_type = .insert ∨
    op.patch_type = .remove ∨ op.patch_type = .move := by
  cases h : op.patch_type
  · exact Or.inl rfl
  · exact Or.inr (Or.inl rfl)
  · exact absurd h hm
  · exact Or.inr (Or.inr (Or.inl rfl))
  · exact Or.inr (Or.inr (Or.inr (Or.inl rfl)))
  · exact Or.inr (Or.inr (Or.inr (Or.inr rfl)))
  · exact absurd h hd

theorem getLast?_decomp {α : Type} : ∀ (l : List α) (a : α),
    l.getLast? = some a → ∃ front, l = front ++ [a]
  | [], a, h => by simp at h
  | [x], a, h => by
      simp only [List.getLast?_singleton, Option.some.injEq] at h
      exact ⟨[], by simp [h]⟩
  | x :: y :: rest, a, h => by
      rw [List.getLast?_cons_cons] at h
      obtain ⟨front, hl⟩ := getLast?_decomp (y :: rest) a h
      exact ⟨x :: front, by simp [hl]⟩

/-! ### Claim C1 -/

/-- Concrete valid merge operation used to refute the claim as stated. -/
def c1cexDoc : JTree := .obj [("m", .obj [("a", .num 1)])]

/-- The merge adds the new key "b". -/
def c1cexOp : Operation :=
  { patch_type := .merge, path := [Tok.key "m"],
    before := .obj [("a", .num 1)], after := .obj [("b", .num 2)] }

/-- Tree after the merge (and also after applying the inverse). -/
def c1cexRes : JTree := .obj [("m", .obj [("a", .num 1), ("b", .num 2)])]

/-- Concrete valid del operation whose inverse fails under the copy-on-write
applier. -/
def c1cexDelDoc : JTree := .obj [("x", .num 1)]

/-- Deleting key "x". -/
def c1cexDelOp : Operation :=
  { patch_type := .del, path := [Tok.key "x"], before := .num 1, after := .null }

/-- Claim C1, counterexample to the statement as written: the merge operation
`c1cexOp` is valid on `c1cexDoc` (its path resolves and `before` is the
current mapping), yet applying it and then its inverse yields `c1cexRes`,
which is not Python-equal to the original tree, under both appliers — the
inverse of a merge stays a merge and does not remove the newly added key.
Additionally, the valid del operation `c1cexDelOp` round-trips under the
mutable applier but its inverse raises (returns none) under the copy-on-write
applier, because `_cow_set_at` requires the deleted key to still exist. -/
theorem C1_apply_invert_roundtrip_cex :
    (validFor c1cexDoc c1cexOp = true ∧ wfT c1cexDoc = true ∧
     TreeApplier.apply c1cexDoc c1cexOp = some c1cexRes ∧
     TreeApplier.apply c1cexRes (TreeApplier.invert c1cexOp) = some c1cexRes ∧
     ImmutableTreeApplier.apply c1cexDoc c1cexOp = some c1cexRes ∧
     ImmutableTreeApplier.apply c1cexRes (ImmutableTreeApplier.invert c1cexOp) =
       some c1cexRes ∧
     pyEq c1cexRes c1cexDoc = false ∧ ¬ c1cexRes = c1cexDoc) ∧
    (validFor c1cexDelDoc c1cexDelOp = true ∧ wfT c1cexDelDoc = true ∧
     ImmutableTreeApplier.apply c1cexDelDoc c1cexDelOp = some (.obj []) ∧
     ImmutableTreeApplier.apply (.obj []) (ImmutableTreeApplier.invert c1cexDelOp) =
       none) := by
  decide

/-- Claim C1 (amended): for every valid operation on a well-formed tree,
applying the operation and then its inverse restores a Python-equal tree —
under the mutable TreeApplier for every patch type except merge, and under the
copy-on-write ImmutableTreeApplier for every patch type except merge and del.
(The original claim also covered merge under both appliers and del under the
copy-on-write applier; those cases fail, see the counterexample.) -/
theorem C1_apply_invert_roundtrip (d : JTree) (op : Operation)
    (hwf : wfT d = true) (hv : validFor d op = true) :
    (op.patch_type ≠ .merge →
      ∃ d1 d2, TreeApplier.apply d op = some d1 ∧
        TreeApplier.apply d1 (TreeApplier.invert op) = some d2 ∧
        pyEq d2 d = true) ∧
    (op.patch_type ≠ .merge → op.patch_type ≠ .del →
      ∃ d1 d2, ImmutableTreeApplier.apply d op = some d1 ∧
        ImmutableTreeApplier.apply d1 (ImmutableTreeApplier.invert op) = some d2 ∧
        pyEq d2 d = true) := by
  constructor
  · intro hm
    by_cases hdel : op.patch_type = .del
    · simp only [validFor, hdel, Bool.and_eq_true, beq_iff_eq] at hv
      obtain ⟨hp, hlast, hg⟩ := hv
      cases hl : op.path.getLast? with
      | none => rw [hl] at hlast; exact Bool.noConfusion hlast
      | some tok =>
        cases tok with
        | idx i => rw [hl] at hlast; exact Bool.noConfusion hlast
        | key k =>
          obtain ⟨pp, hpp⟩ := getLast?_decomp op.path (Tok.key k) hl
          rw [hpp] at hg
          obtain ⟨d1, d2, h1, h2, h3⟩ := del_roundtrip_core pp d k op.before hwf hg
          refine ⟨d1, d2, ?_, ?_, h3⟩
          · simp only [TreeApplier.apply, hdel]
            rw [hpp]
            exact h1
          · simp only [TreeApplier.invert, hdel, TreeApplier.apply]
            rw [hpp]
            exact h2
    · obtain ⟨d1, h1, h2⟩ := exact_roundtrip_tree d op hv (patch_class_of_ne op hm hdel)
      exact ⟨d1, d, h1, h2, pyEq_refl_wf d hwf⟩
  · intro hm hdel
    obtain ⟨d1, h1, h2⟩ := exact_roundtrip_imm d op hv (patch_class_of_ne op hm hdel)
    exact ⟨d1, d, h1, h2, pyEq_refl_wf d hwf⟩

/-- Concrete set operation for the C1 witness. -/
def c1wDoc : JTree := .obj [("a", .num 1)]

/-- Set "a" from 1 to 2. -/
def c1wOp : Operation :=
  { patch_type := .set, path := [Tok.key "a"], before := .num 1, after := .num 2 }

/-- Witness for the amended C1 at a concrete valid set operation. -/
theorem C1_apply_invert_roundtrip_witness :
    (∃ d1 d2, TreeApplier.apply c1wDoc c1wOp = some d1 ∧
      TreeApplier.apply d1 (TreeApplier.invert c1wOp) = some d2 ∧
      pyEq d2 c1wDoc = true) ∧
    (∃ d1 d2, ImmutableTreeApplier.apply c1wDoc c1wOp = some d1 ∧
      ImmutableTreeApplier.apply d1 (ImmutableTreeApplier.invert c1wOp) = some d2 ∧
      pyEq d2 c1wDoc = true) := by
  have h := C1_apply_invert_roundtrip c1wDoc c1wOp (by decide) (by decide)
  exact ⟨h.1 (by decide), h.2 (by decide) (by decide)⟩

/-! ### Claim C2 -/

/-- Concrete merge whose inverse fails to restore: it adds the key "port". -/
def c2cexDoc : JTree := .obj [("cfg", .obj [("host", .str "a")])]

/-- Merge adding "port". -/
def c2cexOp : Operation :=
  { patch_type := .merge, path := [Tok.key "cfg"],
    before := .obj [("host", .str "a")], after := .obj [("port", .num 80)] }

/-- Tree after the merge (and also after applying the inverse). -/
def c2cexRes : JTree := .obj [("cfg", .obj [("host", .str "a"), ("port", .num 80)])]

/-- Claim C2, counterexample to the statement as written: the inverse of a
merge operation is not a set operation (its patch_type stays merge), and
applying the inverse does not remove the key the merge newly added, so the
pre-merge mapping at the path is not restored. -/
theorem C2_merge_invert_cex :
    (TreeApplier.invert c2cexOp).patch_type = PatchType.merge ∧
    ¬ (TreeApplier.invert c2cexOp).patch_type = PatchType.set ∧
    (TreeApplier.invert c2cexOp).before = c2cexOp.after ∧
    (TreeApplier.invert c2cexOp).after = c2cexOp.before ∧
    validFor c2cexDoc c2cexOp = true ∧
    TreeApplier.apply c2cexDoc c2cexOp = some c2cexRes ∧
    TreeApplier.apply c2cexRes (TreeApplier.invert c2cexOp) = some c2cexRes ∧
    ¬ get_at c2cexRes [Tok.key "cfg"] = some (.obj [("host", .str "a")]) := by
  decide

/-- Claim C2 (amended): inverting a merge swaps before and after, but the
inverse remains a merge operation (not a set).  Applying the inverse re-merges
the recorded pre-merge mapping into the current one, which restores the
pre-merge mapping at the path exactly when the merge introduced no new keys;
keys the merge newly added are not removed (see the counterexample). -/
theorem C2_merge_invert (op : Operation) (hm : op.patch_type = .merge) :
    TreeApplier.invert op = { op with before := op.after, after := op.before } ∧
    (∀ (d : JTree) (ckvs akvs : List (String × JTree)),
      wfT d = true →
      get_at d op.path = some (.obj ckvs) →
      op.before = .obj ckvs →
      op.after = .obj akvs →
      (∀ k1 ∈ akvs.map Prod.fst, dmem ckvs k1 = true) →
      ∃ d1, TreeApplier.apply d op = some d1 ∧
        TreeApplier.apply d1 (TreeApplier.invert op) = some d) := by
  obtain ⟨pt, path, before, after, index, fi, ti, ck⟩ := op
  cases hm
  constructor
  · rfl
  · intro d ckvs akvs hwf hg hb ha hsub
    simp only at hb ha
    cases hb
    cases ha
    obtain ⟨d1, h1, h2, h3⟩ := set_at_lens d path (.obj ckvs) (.obj (dmerge ckvs akvs)) hg
    have hnd : keysNodup (ckvs.map Prod.fst) = true := by
      have hwfc := wfT_get_at d path (.obj ckvs) hwf hg
      rw [wfT] at hwfc
      exact ((Bool.and_eq_true _ _).mp hwfc).1
    have hkeys := dmerge_keys_of_subset akvs ckvs hsub
    have hrestore : dmerge (dmerge ckvs akvs) ckvs = ckvs :=
      dmerge_restore ckvs (dmerge ckvs akvs) hnd hkeys
    refine ⟨d1, ?_, ?_⟩
    · simp only [TreeApplier.apply, hg, Option.some_bind]
      exact h1
    · simp only [TreeApplier.invert, TreeApplier.apply, h2, Option.some_bind]
      rw [hrestore, h3 (.obj ckvs)]
      exact set_at_get d path (.obj ckvs) hg

/-- Concrete merge for the C2 witness: overwrites an existing key only. -/
def c2wDoc : JTree := .obj [("m", .obj [("a", .num 1)])]

/-- Merge overwriting "a" (no new keys). -/
def c2wOp : Operation :=
  { patch_type := .merge, path := [Tok.key "m"],
    before := .obj [("a", .num 1)], after := .obj [("a", .num 5)] }

/-- Witness for the amended C2 at a concrete new-key-free merge. -/
theorem C2_merge_invert_witness :
    TreeApplier.invert c2wOp = { c2wOp with before := c2wOp.after, after := c2wOp.before } ∧
    ∃ d1, TreeApplier.apply c2wDoc c2wOp = some d1 ∧
      TreeApplier.apply d1 (TreeApplier.invert c2wOp) = some c2wDoc := by
  have h := C2_merge_invert c2wOp (by decide)
  exact ⟨h.1, h.2 c2wDoc [("a", .num 1)] [("a", .num 5)]
    (by decide) (by decide) (by decide) (by decide) (by decide)⟩

/-! ### Claim C9 -/

theorem dpop_not_mem : ∀ (kvs : List (String × JTree)) (k : String),
    dlookup kvs k = none → dpop kvs k = kvs
  | [], _, _ => rfl
  | (k1, w) :: rest, k, h => by
      by_cases h1 : k1 = k
      · simp [dlookup, h1] at h
      · simp only [dlookup, if_neg h1] at h
        simp [dpop, h1, dpop_not_mem rest k h]

theorem cow_del_cons_obj (kvs : List (String × JTree)) (k0 : String) (child : JTree)
    (q : List Tok) (hq : q ≠ []) (hl : dlookup kvs k0 = some child) :
    cow_del_at (.obj kvs) (Tok.key k0 :: q) =
      (cow_del_at child q).map fun c => .obj (dset kvs k0 c) := by
  obtain ⟨q0, qs, rfl⟩ : ∃ q0 qs, q = q0 :: qs := by
    cases q with
    | nil => exact absurd rfl hq
    | cons q0 qs => exact ⟨q0, qs, rfl⟩
  simp [cow_del_at, hl]

theorem cow_del_cons_arr (xs : List JTree) (i : Int) (child : JTree)
    (q : List Tok) (hq : q ≠ []) (h0 : 0 ≤ i) (hlt : i < (xs.length : Int))
    (hc : xs[i.toNat]? = some child) :
    cow_del_at (.arr xs) (Tok.idx i :: q) =
      (cow_del_at child q).map fun c => .arr (xs.set i.toNat c) := by
  obtain ⟨q0, qs, rfl⟩ : ∃ q0 qs, q = q0 :: qs := by
    cases q with
    | nil => exact absurd rfl hq
    | cons q0 qs => exact ⟨q0, qs, rfl⟩
  simp [cow_del_at, h0, hlt, hc]

/-- Deleting a key that is absent from the resolved target mapping is a no-op
for the copy-on-write delete. -/
theorem cow_del_noop (pp : List Tok) (d : JTree) (k : String)
    (kvs : List (String × JTree))
    (hp : pathNonneg pp = true)
    (hg : get_at d pp = some (.obj kvs))
    (hmiss : dlookup kvs k = none) :
    cow_del_at d (pp ++ [Tok.key k]) = some d := by
  induction pp generalizing d with
  | nil =>
    simp only [get_at, Option.some.injEq] at hg
    subst hg
    simp [cow_del_at, dpop_not_mem kvs k hmiss]
  | cons tok q ih =>
    have hq : pathNonneg q = true := ((pathNonneg_cons _ _).mp hp).2
    have hqne : q ++ [Tok.key k] ≠ [] := by simp
    cases d with
    | obj kvs0 =>
      cases tok with
      | key k0 =>
        rw [get_at_cons_obj] at hg
        cases hl : dlookup kvs0 k0 with
        | none => rw [hl] at hg; simp at hg
        | some child =>
          rw [hl] at hg
          simp only [Option.some_bind] at hg
          rw [List.cons_append, cow_del_cons_obj kvs0 k0 child _ hqne hl,
              ih child hq hg]
          simp [dset_self kvs0 k0 child hl]
      | idx i => simp [get_at] at hg
    | arr xs =>
      cases tok with
      | idx i =>
        have h0 : 0 ≤ i := by
          have := ((pathNonneg_cons _ _).mp hp).1
          simpa using this
        rw [get_at_cons_arr] at hg
        cases hj : pyIdx xs.length i with
        | none => rw [hj] at hg; simp at hg
        | some j =>
          rw [hj] at hg
          simp only [Option.some_bind] at hg
          obtain ⟨hlt, hje⟩ := pyIdx_nonneg_inv _ _ _ h0 hj
          subst hje
          cases hc : xs[i.toNat]? with
          | none => rw [hc] at hg; simp at hg
          | some child =>
            rw [hc] at hg
            simp only [Option.some_bind] at hg
            rw [List.cons_append, cow_del_cons_arr xs i child _ hqne h0 hlt hc,
                ih child hq hg]
            simp [lset_get_self xs i.toNat child hc]
      | key k0 => simp [get_at] at hg
    | null => simp [get_at] at hg
    | bool b => simp [get_at] at hg
    | num n => simp [get_at] at hg
    | str s => simp [get_at] at hg

/-- Claim C9, counterexample to the statement as written: under the
copy-on-write applier, `_cow_del_at` with an integer last token does not raise
a structural path error — it deletes the list element at that index. -/
theorem C9_del_requires_key_cex :
    cow_del_at (.arr [.num 7]) [Tok.idx 0] = some (.arr []) ∧
    ¬ cow_del_at (.arr [.num 7]) [Tok.idx 0] = none ∧
    ¬ del_at (.arr [.num 7]) [Tok.idx 0] = some (.arr []) := by
  decide

/-- Claim C9 (amended): an empty path is a structural error for both deletes;
a path whose last token is not a string key is a structural error for the
mutable `del_at` (but not for `_cow_del_at`, which deletes list elements —
see the counterexample); and deleting a key absent from the resolved target
mapping is a no-op, returning the tree unchanged, under both deletes. -/
theorem C9_del_requires_key (d : JTree) :
    (del_at d [] = none ∧ cow_del_at d [] = none) ∧
    (∀ (p : List Tok) (i : Int), p.getLast? = some (Tok.idx i) → del_at d p = none) ∧
    (∀ (pp : List Tok) (k : String) (kvs : List (String × JTree)),
      pathNonneg pp = true →
      get_at d pp = some (.obj kvs) →
      dlookup kvs k = none →
      del_at d (pp ++ [Tok.key k]) = some d ∧
      cow_del_at d (pp ++ [Tok.key k]) = some d) := by
  refine ⟨⟨rfl, rfl⟩, ?_, ?_⟩
  · intro p i hl
    simp [del_at, hl]
  · intro pp k kvs hp hg hmiss
    refine ⟨?_, cow_del_noop pp d k kvs hp hg hmiss⟩
    simp only [del_at, List.getLast?_concat, List.dropLast_concat, hg,
      Option.some_bind]
    rw [dpop_not_mem kvs k hmiss]
    exact set_at_get d pp (.obj kvs) hg

/-- Witness for the amended C9 at concrete inputs. -/
theorem C9_del_requires_key_witness :
    (del_at (JTree.obj [("a", .num 1)]) [] = none ∧
     cow_del_at (JTree.obj [("a", .num 1)]) [] = none) ∧
    del_at (JTree.obj [("a", .num 1)]) [Tok.idx 0] = none ∧
    (del_at (JTree.obj [("a", .num 1)]) [Tok.key "z"] = some (JTree.obj [("a", .num 1)]) ∧
     cow_del_at (JTree.obj [("a", .num 1)]) [Tok.key "z"] = some (JTree.obj [("a", .num 1)])) := by
  have h := C9_del_requires_key (JTree.obj [("a", .num 1)])
  refine ⟨h.1, h.2.1 [Tok.idx 0] 0 (by decide), ?_⟩
  have h3 := h.2.2 [] "z" [("a", .num 1)] (by decide) (by decide) (by decide)
  exact h3

/-! ### History stack (helpers/history/history.py)

Stack tops live at the END of the lists, mirroring Python list append /
`[-1]` / `pop()`.  On an applier exception the Python methods propagate it;
`none` models the raise (the claims below only concern success and empty-stack
paths). -/

/-- `Batch`: a group of operations treated as one undo/redo step (batch_id and
meta omitted as pure metadata). -/
structure Batch where
  label : String := ""
  ops : List Operation := []
  deriving Repr, DecidableEq

/-- `HistoryEntry = Union[Operation, Batch]`. -/
inductive HistoryEntry where
  | op : Operation → HistoryEntry
  | batch : Batch → HistoryEntry
  deriving Repr, DecidableEq

/-- The applier strategy bound to a History (`DocumentApplier` protocol). -/
structure Applier where
  apply : JTree → Operation → Option JTree
  invert : Operation → Operation

/-- The mutable strategy. -/
def treeApplier : Applier := ⟨TreeApplier.apply, TreeApplier.invert⟩

/-- The copy-on-write strategy. -/
def immutableTreeApplier : Applier :=
  ⟨ImmutableTreeApplier.apply, ImmutableTreeApplier.invert⟩

/-- `History`: undo/redo stacks, optional bound document, open batch window. -/
structure History where
  applier : Applier
  doc : Option JTree := none
  undo_stack : List HistoryEntry := []
  redo_stack : List HistoryEntry := []
  open_batch_label : Option String := none
  open_batch_ops : List Operation := []

/-- The merged operation `History.apply` builds when coalescing: the old top
keeps its patch type, path, `before` and key; the new op contributes `after`
and the index fields. -/
def mergedOp (last op : Operation) : Operation :=
  { patch_type := last.patch_type, path := last.path,
    before := last.before, after := op.after,
    index := op.index, from_index := op.from_index, to_index := op.to_index,
    coalesce_key := last.coalesce_key }

/-- The coalescing test in `History.apply`: `if op.coalesce_key and
self.undo_stack` (Python truthiness: the key must be non-null AND non-empty,
the stack nonempty), the top entry must be a single Operation with the same
key. -/
def coalesceTop (stack : List HistoryEntry) (op : Operation) : Option Operation :=
  match op.coalesce_key with
  | none => none
  | some ck =>
    if ck = "" then none
    else
      match stack.getLast? with
      | some (.op last) =>
          if last.coalesce_key = op.coalesce_key then some last else none
      | _ => none

/-- `History.begin_batch` (RuntimeError when a batch is already open). -/
def History.begin_batch (h : History) (label : String) : Option History :=
  match h.open_batch_label with
  | some _ => none
  | none => some { h with open_batch_label := some label, open_batch_ops := [] }

/-- `History.end_batch`: when operations were recorded, push them as one Batch
entry and clear the redo stack; always close the window. -/
def History.end_batch (h : History) : Option History :=
  match h.open_batch_label with
  | none => none
  | some label =>
      if h.open_batch_ops = [] then
        some { h with open_batch_label := none, open_batch_ops := [] }
      else
        some { h with
          undo_stack :=
            h.undo_stack ++ [.batch { label := label, ops := h.open_batch_ops }],
          redo_stack := [],
          open_batch_label := none, open_batch_ops := [] }

/-- `History.apply`: apply the mutation, bind the document, then record —
into the open batch if one is open, else coalescing with the top entry when
the keys agree, else pushing; any recording clears the redo stack. -/
def History.apply (h : History) (doc : JTree) (op : Operation) :
    Option (History × JTree) :=
  (h.applier.apply doc op).map fun newDoc =>
    let h1 := { h with doc := some newDoc }
    match h1.open_batch_label with
    | some _ => ({ h1 with open_batch_ops := h1.open_batch_ops ++ [op] }, newDoc)
    | none =>
      match coalesceTop h1.undo_stack op with
      | some last =>
          ({ h1 with
             undo_stack := h1.undo_stack.dropLast ++ [.op (mergedOp last op)],
             redo_stack := [] }, newDoc)
      | none =>
          ({ h1 with
             undo_stack := h1.undo_stack ++ [.op op],
             redo_stack := [] }, newDoc)

/-- The undo loop body: invert and re-apply operations one by one. -/
def undoOps (ap : Applier) : List Operation → JTree → Option JTree
  | [], doc => some doc
  | op :: rest, doc => (ap.apply doc (ap.invert op)).bind (undoOps ap rest)

/-- The redo loop body: re-apply operations one by one. -/
def redoOps (ap : Applier) : List Operation → JTree → Option JTree
  | [], doc => some doc
  | op :: rest, doc => (ap.apply doc op).bind (redoOps ap rest)

/-- `History.undo`: empty stack is a no-op returning the document; otherwise
pop the top entry, invert and re-apply (a Batch in reverse order), push the
entry to the redo stack and bind the document. -/
def History.undo (h : History) (doc : JTree) : Option (History × JTree) :=
  match h.undo_stack.getLast? with
  | none => some (h, doc)
  | some entry =>
    let ops := match entry with
      | .batch b => b.ops.reverse
      | .op op => [op]
    (undoOps h.applier ops doc).map fun d =>
      ({ h with undo_stack := h.undo_stack.dropLast,
                redo_stack := h.redo_stack ++ [entry],
                doc := some d }, d)

/-- `History.redo`: empty stack is a no-op; otherwise pop from the redo
stack, re-apply (a Batch in forward order), push back to the undo stack. -/
def History.redo (h : History) (doc : JTree) : Option (History × JTree) :=
  match h.redo_stack.getLast? with
  | none => some (h, doc)
  | some entry =>
    let ops := match entry with
      | .batch b => b.ops
      | .op op => [op]
    (redoOps h.applier ops doc).map fun d =>
      ({ h with undo_stack := h.undo_stack ++ [entry],
                redo_stack := h.redo_stack.dropLast,
                doc := some d }, d)

/-- `History.push_set`: requires a bound document, performs the optimistic
check (`cur != old` is a fatal ValueError), then records+applies a set
operation.  The constructed operation carries no coalesce key. -/
def History.push_set (h : History) (path : List Tok) (old new : JTree) :
    Option (History × JTree) :=
  match h.doc with
  | none => none
  | some doc =>
    (get_at doc path).bind fun cur =>
    if pyEq cur old = true then
      h.apply doc { patch_type := .set, path := path, before := old, after := new }
    else none

/-- Sequential `History.apply` over a list of operations. -/
def History.applySeq (h : History) (doc : JTree) :
    List Operation → Option (History × JTree)
  | [] => some (h, doc)
  | op :: rest => (h.apply doc op).bind fun p => p.1.applySeq p.2 rest

/-! ### Claim C10 -/

/-- Claim C10 (confirmed): with an empty undo stack, `History.undo` returns
the document unchanged and the entire History state (stacks and bound doc)
untouched, raising no error; `History.redo` with an empty redo stack behaves
the same way. -/
theorem C10_undo_redo_empty (h : History) (d : JTree) :
    (h.undo_stack = [] → h.undo d = some (h, d)) ∧
    (h.redo_stack = [] → h.redo d = some (h, d)) := by
  constructor
  · intro he
    simp [History.undo, he]
  · intro he
    simp [History.redo, he]

/-- Fresh History used as the C10 witness. -/
def c10wHistory : History := { applier := treeApplier, doc := some (.obj []) }

/-- Witness for C10 at a concrete empty-stack History. -/
theorem C10_undo_redo_empty_witness :
    c10wHistory.undo (.obj []) = some (c10wHistory, .obj []) ∧
    c10wHistory.redo (.obj []) = some (c10wHistory, .obj []) :=
  ⟨(C10_undo_redo_empty c10wHistory (.obj [])).1 rfl,
   (C10_undo_redo_empty c10wHistory (.obj [])).2 rfl⟩

/-! ### Claim C3 -/

/-- History whose two push_set calls refute the coalescing claim. -/
def c3cexH0 : History := { applier := treeApplier, doc := some (.obj [("a", .num 0)]) }

/-- Top entry with the truthy-false empty-string key. -/
def c3cexOpA : Operation :=
  { patch_type := .set, path := [Tok.key "a"], before := .num 0, after := .num 1,
    coalesce_key := some "" }

/-- Incoming op with the same empty-string key. -/
def c3cexOpB : Operation :=
  { patch_type := .set, path := [Tok.key "a"], before := .num 1, after := .num 2,
    coalesce_key := some "" }

/-- History with `c3cexOpA` on top of the undo stack. -/
def c3cexH1 : History :=
  { applier := treeApplier, doc := some (.obj [("a", .num 1)]),
    undo_stack := [.op c3cexOpA] }

/-- Claim C3, counterexample to the statement as written: (1) two successive
`push_set` calls on the same path leave two undo entries, not one — `push_set`
never assigns a coalesce key, so its operations cannot share one; (2) an
operation whose coalesce_key is the non-null empty string does not coalesce
with a matching top entry either (Python truthiness treats "" as falsy), so
two entries remain. -/
theorem C3_coalescing_cex :
    (((c3cexH0.push_set [Tok.key "a"] (.num 0) (.num 1)).bind fun p =>
        p.1.push_set [Tok.key "a"] (.num 1) (.num 2)).map
          (fun p => p.1.undo_stack) =
      some [.op { patch_type := .set, path := [Tok.key "a"],
                  before := .num 0, after := .num 1 },
            .op { patch_type := .set, path := [Tok.key "a"],
                  before := .num 1, after := .num 2 }]) ∧
    ¬ c3cexOpB.coalesce_key = none ∧
    c3cexOpA.coalesce_key = c3cexOpB.coalesce_key ∧
    ((c3cexH1.apply (.obj [("a", .num 1)]) c3cexOpB).map (fun p => p.1.undo_stack) =
      some [.op c3cexOpA, .op c3cexOpB]) := by
  decide

/-- Claim C3 (amended): with no batch open, `History.apply` of an operation
whose coalesce_key is non-null AND non-empty, when the top of the undo stack
is a single Operation with the same key, replaces that top entry with a merged
operation keeping the old top `before` and taking the new op `after`, and
clears the redo stack; `push_set`, however, constructs its operation with no
coalesce key, so successive push_set calls append separate entries. -/
theorem C3_coalescing (h : History) (doc : JTree) (op : Operation)
    (init : List HistoryEntry) (last : Operation) (d1 : JTree)
    (hopen : h.open_batch_label = none)
    (hkey : ∃ ck, op.coalesce_key = some ck ∧ ¬ ck = "")
    (hstack : h.undo_stack = init ++ [.op last])
    (hsame : last.coalesce_key = op.coalesce_key)
    (happ : h.applier.apply doc op = some d1) :
    (h.apply doc op =
      some ({ h with doc := some d1,
                     undo_stack := init ++ [.op (mergedOp last op)],
                     redo_stack := [] }, d1)) ∧
    (mergedOp last op).before = last.before ∧
    (mergedOp last op).after = op.after ∧
    (∀ (h2 : History) (p : List Tok) (old new : JTree) (h3 : History) (d3 : JTree),
      h2.open_batch_label = none →
      h2.push_set p old new = some (h3, d3) →
      h3.undo_stack = h2.undo_stack ++
        [.op { patch_type := .set, path := p, before := old, after := new }]) := by
  obtain ⟨ck, hck, hne⟩ := hkey
  have hco : coalesceTop h.undo_stack op = some last := by
    rw [coalesceTop, hck]
    simp only [if_neg hne, hstack, List.getLast?_concat, hsame]
    simp [hck]
  rw [hstack] at hco
  refine ⟨?_, rfl, rfl, ?_⟩
  · rw [History.apply, happ]
    simp only [Option.map_some', hopen, hstack, hco, List.dropLast_concat]
  · intro h2 p old new h3 d3 hopen2 hps
    rw [History.push_set] at hps
    cases hdoc : h2.doc with
    | none =>
      simp only [hdoc] at hps
      exact Option.noConfusion hps
    | some doc2 =>
      simp only [hdoc] at hps
      cases hcur : get_at doc2 p with
      | none =>
        simp only [hcur, Option.none_bind] at hps
        exact Option.noConfusion hps
      | some cur =>
        simp only [hcur, Option.some_bind] at hps
        by_cases hpe : pyEq cur old = true
        · rw [if_pos hpe, History.apply] at hps
          cases hap : h2.applier.apply doc2
              { patch_type := .set, path := p, before := old, after := new } with
          | none =>
            simp only [hap, Option.map_none'] at hps
            exact Option.noConfusion hps
          | some nd =>
            have hco2 : coalesceTop h2.undo_stack
                { patch_type := .set, path := p, before := old, after := new } =
                none := rfl
            simp only [hap, Option.map_some', hopen2, hco2, Option.some.injEq] at hps
            obtain ⟨e1, e2⟩ := Prod.mk.injEq .. ▸ hps
            rw [← e1]
        · rw [if_neg hpe] at hps
          exact Option.noConfusion hps

/-- History for the C3 witness: top entry carries the key "drag". -/
def c3wOpA : Operation :=
  { patch_type := .set, path := [Tok.key "a"], before := .num 0, after := .num 1,
    coalesce_key := some "drag" }

/-- Incoming op with the same key "drag". -/
def c3wOpB : Operation :=
  { patch_type := .set, path := [Tok.key "a"], before := .num 1, after := .num 2,
    coalesce_key := some "drag" }

/-- History with `c3wOpA` on top. -/
def c3wH : History :=
  { applier := treeApplier, doc := some (.obj [("a", .num 1)]),
    undo_stack := [.op c3wOpA], redo_stack := [.op c3wOpA] }

/-- Witness for the amended C3: a real coalescing replace at concrete inputs. -/
theorem C3_coalescing_witness :
    c3wH.apply (.obj [("a", .num 1)]) c3wOpB =
      some ({ c3wH with doc := some (.obj [("a", .num 2)]),
                        undo_stack := [.op (mergedOp c3wOpA c3wOpB)],
                        redo_stack := [] }, .obj [("a", .num 2)]) ∧
    (mergedOp c3wOpA c3wOpB).before = c3wOpA.before ∧
    (mergedOp c3wOpA c3wOpB).after = c3wOpB.after := by
  have h := C3_coalescing c3wH (.obj [("a", .num 1)]) c3wOpB [] c3wOpA
    (.obj [("a", .num 2)]) rfl ⟨"drag", rfl, by decide⟩ rfl rfl (by decide)
  exact ⟨h.1, h.2.1, h.2.2.1⟩

/-! ### Claim C4 -/

/-- Stepwise validity of an operation sequence under the mutable applier,
restricted to the exactly invertible patch types (set / replace / insert /
remove / move). -/
inductive ValidOps : JTree → List Operation → Prop
  | nil (d : JTree) : ValidOps d []
  | cons (d : JTree) (op : Operation) (rest : List Operation) (d1 : JTree) :
      validFor d op = true →
      (op.patch_type = .set ∨ op.patch_type = .replace ∨ op.patch_type = .insert ∨
       op.patch_type = .remove ∨ op.patch_type = .move) →
      TreeApplier.apply d op = some d1 →
      ValidOps d1 rest →
      ValidOps d (op :: rest)

theorem undoOps_append (ap : Applier) (l1 l2 : List Operation) (doc : JTree) :
    undoOps ap (l1 ++ l2) doc = (undoOps ap l1 doc).bind (undoOps ap l2) := by
  induction l1 generalizing doc with
  | nil => simp [undoOps]
  | cons op rest ih =>
    rw [List.cons_append, undoOps, undoOps]
    cases ap.apply doc (ap.invert op) <;> simp [ih]

/-- A stepwise-valid sequence applies forward to some final tree, and undoing
it (inverting and re-applying in reverse order) restores the initial tree
exactly. -/
theorem validOps_roundtrip (d : JTree) (ops : List Operation)
    (hv : ValidOps d ops) :
    ∃ dk, redoOps treeApplier ops d = some dk ∧
      undoOps treeApplier ops.reverse dk = some d := by
  induction hv with
  | nil d0 => exact ⟨d0, rfl, rfl⟩
  | cons d0 op rest d1 hvalid hclass hap hrest ih =>
    obtain ⟨dk, hredo, hundo⟩ := ih
    refine ⟨dk, ?_, ?_⟩
    · rw [redoOps]
      have hap2 : treeApplier.apply d0 op = some d1 := hap
      rw [hap2]
      simpa using hredo
    · rw [List.reverse_cons, undoOps_append, hundo]
      simp only [Option.some_bind, undoOps]
      obtain ⟨d1w, hA, hB⟩ := exact_roundtrip_tree d0 op hvalid hclass
      have he : d1w = d1 := by
        rw [hap] at hA
        exact (Option.some.injEq _ _ ▸ hA.symm)
      rw [he] at hB
      have hB2 : treeApplier.apply d1 (treeApplier.invert op) = some d0 := hB
      rw [hB2]
      rfl

/-- Inside an open batch, sequential History.apply records the operations in
the batch window, leaves both stacks untouched, and threads the document. -/
theorem applySeq_batch (ops : List Operation) (h : History) (doc dk : JTree)
    (label : String)
    (hne : ops ≠ [])
    (hopen : h.open_batch_label = some label)
    (hchain : redoOps h.applier ops doc = some dk) :
    h.applySeq doc ops =
      some ({ h with
              doc := some dk,
              open_batch_ops := h.open_batch_ops ++ ops }, dk) := by
  induction ops generalizing h doc with
  | nil => exact absurd rfl hne
  | cons op rest ih =>
    rw [redoOps] at hchain
    cases hap : h.applier.apply doc op with
    | none => rw [hap] at hchain; exact Option.noConfusion hchain
    | some d1 =>
      rw [hap] at hchain
      simp only [Option.some_bind] at hchain
      rw [History.applySeq, History.apply, hap]
      simp only [Option.map_some', hopen, Option.some_bind]
      cases rest with
      | nil =>
        rw [History.applySeq]
        simp only [redoOps, Option.some.injEq] at hchain
        rw [hchain]
      | cons op2 rest2 =>
        rw [ih { h with doc := some d1, open_batch_label := some label, open_batch_ops := h.open_batch_ops ++ [op] } d1 (by simp) rfl hchain]
        simp

/-- Claim C4 (amended): after begin_batch, applying a nonempty stepwise-valid
sequence of exactly invertible operations (patch types set / replace / insert
/ remove / move) under the mutable applier, and end_batch, the batch sits as
one undo entry; a single undo pops exactly that entry, restores the exact
pre-batch tree by inverting and re-applying the operations in reverse order,
and pushes the original batch entry onto the redo stack.  (As stated the
claim quantified over arbitrary operations; a batch containing a merge does
not restore the pre-batch tree — see the counterexample.) -/
theorem C4_batch_undo (h0 h1 h2 h3 : History) (d0 dk : JTree) (label : String)
    (ops : List Operation)
    (hap : h0.applier = treeApplier)
    (hopen : h0.open_batch_label = none)
    (hne : ops ≠ [])
    (hv : ValidOps d0 ops)
    (hbegin : h0.begin_batch label = some h1)
    (happly : h1.applySeq d0 ops = some (h2, dk))
    (hend : h2.end_batch = some h3) :
    h3.undo_stack = h0.undo_stack ++ [.batch { label := label, ops := ops }] ∧
    h3.redo_stack = [] ∧
    ∃ h4, h3.undo dk = some (h4, d0) ∧
      h4.undo_stack = h0.undo_stack ∧
      h4.redo_stack = [.batch { label := label, ops := ops }] ∧
      h4.doc = some d0 := by
  rw [History.begin_batch, hopen] at hbegin
  simp only [Option.some.injEq] at hbegin
  obtain ⟨dk2, hchain, hundo⟩ := validOps_roundtrip d0 ops hv
  have hchain2 : redoOps h1.applier ops d0 = some dk2 := by
    rw [← hbegin]
    exact hap ▸ hchain
  have hopen1 : h1.open_batch_label = some label := by
    rw [← hbegin]
  rw [applySeq_batch ops h1 d0 dk2 label hne hopen1 hchain2] at happly
  simp only [Option.some.injEq] at happly
  have hh2 : ({ h1 with
                doc := some dk2,
                open_batch_ops := h1.open_batch_ops ++ ops } : History) = h2 :=
    congrArg Prod.fst happly
  have hdk : dk2 = dk := congrArg Prod.snd happly
  subst hdk
  rw [History.end_batch] at hend
  have hopen2 : h2.open_batch_label = some label := by
    rw [← hh2]
    exact hopen1
  have hobo2 : h2.open_batch_ops = ops := by
    rw [← hh2]
    show h1.open_batch_ops ++ ops = ops
    rw [← hbegin]
    simp
  simp only [hopen2] at hend
  simp only [hobo2, if_neg hne] at hend
  simp only [Option.some.injEq] at hend
  have hstack2 : h2.undo_stack = h0.undo_stack := by
    rw [← hh2]
    show h1.undo_stack = h0.undo_stack
    rw [← hbegin]
  have happlier2 : h2.applier = treeApplier := by
    rw [← hh2]
    show h1.applier = treeApplier
    rw [← hbegin]
    exact hap
  have hstack3 : h3.undo_stack =
      h0.undo_stack ++ [.batch { label := label, ops := ops }] := by
    rw [← hend]
    show h2.undo_stack ++ _ = _
    rw [hstack2]
  have hredo3 : h3.redo_stack = [] := by
    rw [← hend]
  have happlier3 : h3.applier = treeApplier := by
    rw [← hend]
    exact happlier2
  refine ⟨hstack3, hredo3,
    ⟨{ h3 with undo_stack := h3.undo_stack.dropLast,
               redo_stack := h3.redo_stack ++
                 [.batch { label := label, ops := ops }],
               doc := some d0 }, ?_, ?_, ?_, rfl⟩⟩
  · rw [History.undo, hstack3, List.getLast?_concat]
    simp only
    rw [happlier3, hundo]
    simp only [Option.map_some', List.dropLast_concat]
  · show h3.undo_stack.dropLast = h0.undo_stack
    rw [hstack3, List.dropLast_concat]
  · show h3.redo_stack ++ _ = _
    rw [hredo3]
    simp

/-- Document for the C4 counterexample. -/
def c4cexDoc : JTree := .obj [("m", .obj [("a", .num 1)])]

/-- A valid merge (adds key "b") recorded inside a batch. -/
def c4cexOp : Operation :=
  { patch_type := .merge, path := [Tok.key "m"],
    before := .obj [("a", .num 1)], after := .obj [("b", .num 2)] }

/-- Fresh History bound to the mutable applier. -/
def c4cexH0 : History := { applier := treeApplier }

/-- Tree after the merge, which undo fails to revert. -/
def c4cexRes : JTree := .obj [("m", .obj [("a", .num 1), ("b", .num 2)])]

/-- Claim C4, counterexample to the statement as written: a batch containing
one valid merge operation undoes as a single pop (the stack empties and the
batch lands on the redo stack), but the tree it returns is NOT the pre-batch
tree — it still contains the key the merge added. -/
theorem C4_batch_undo_cex :
    ((do
      let h1 ← c4cexH0.begin_batch "grp"
      let p2 ← h1.apply c4cexDoc c4cexOp
      let h3 ← p2.1.end_batch
      h3.undo p2.2) :
        Option (History × JTree)).map
      (fun p => (p.2, pyEq p.2 c4cexDoc, p.1.undo_stack.length,
                 p.1.redo_stack)) =
      some (c4cexRes, false, 0,
            [.batch { label := "grp", ops := [c4cexOp] }]) ∧
    ¬ c4cexRes = c4cexDoc := by
  decide

/-- Concrete inputs for the C4 witness: a two-operation batch of sets. -/
def c4wDoc : JTree := .obj [("a", .num 0)]

/-- First set. -/
def c4wOp1 : Operation :=
  { patch_type := .set, path := [Tok.key "a"], before := .num 0, after := .num 1 }

/-- Second set. -/
def c4wOp2 : Operation :=
  { patch_type := .set, path := [Tok.key "a"], before := .num 1, after := .num 2 }

/-- Fresh History for the witness. -/
def c4wH0 : History := { applier := treeApplier }

/-- After begin_batch. -/
def c4wH1 : History := { applier := treeApplier, open_batch_label := some "grp" }

/-- After recording both sets in the batch window. -/
def c4wH2 : History :=
  { applier := treeApplier, doc := some (.obj [("a", .num 2)]),
    open_batch_label := some "grp", open_batch_ops := [c4wOp1, c4wOp2] }

/-- After end_batch. -/
def c4wH3 : History :=
  { applier := treeApplier, doc := some (.obj [("a", .num 2)]),
    undo_stack := [.batch { label := "grp", ops := [c4wOp1, c4wOp2] }] }

/-- Witness for the amended C4 at a concrete two-set batch. -/
theorem C4_batch_undo_witness :
    c4wH3.undo_stack = c4wH0.undo_stack ++
      [.batch { label := "grp", ops := [c4wOp1, c4wOp2] }] ∧
    c4wH3.redo_stack = [] ∧
    ∃ h4, c4wH3.undo (.obj [("a", .num 2)]) = some (h4, c4wDoc) ∧
      h4.undo_stack = c4wH0.undo_stack ∧
      h4.redo_stack = [.batch { label := "grp", ops := [c4wOp1, c4wOp2] }] ∧
      h4.doc = some c4wDoc := by
  have hv : ValidOps c4wDoc [c4wOp1, c4wOp2] :=
    ValidOps.cons c4wDoc c4wOp1 [c4wOp2] (.obj [("a", .num 1)]) (by decide)
      (Or.inl rfl) (by decide)
      (ValidOps.cons (.obj [("a", .num 1)]) c4wOp2 [] (.obj [("a", .num 2)])
        (by decide) (Or.inl rfl) (by decide)
        (ValidOps.nil (.obj [("a", .num 2)])))
  exact C4_batch_undo c4wH0 c4wH1 c4wH2 c4wH3 c4wDoc (.obj [("a", .num 2)])
    "grp" [c4wOp1, c4wOp2] rfl rfl (by decide) hv rfl rfl rfl

/-! ### Decimal formatting (Python f-string `{n:04d}`)

The fuel-based digit extraction is structurally recursive so that concrete
instances evaluate inside `decide`. -/

/-- ASCII digit character for a single decimal digit. -/
def digitChar (d : Nat) : Char := Char.ofNat (48 + d)

/-- Numeric value of an ASCII digit character. -/
def digitVal (c : Char) : Nat := c.toNat - 48

/-- Decimal digits of `n`, most significant first (fuel-based). -/
def natDigitsAux : Nat → Nat → List Char
  | 0, _ => []
  | fuel + 1, n =>
      if n < 10 then [digitChar n]
      else natDigitsAux fuel (n / 10) ++ [digitChar (n % 10)]

/-- Decimal digits of a natural number, most significant first. -/
def natDigits (n : Nat) : List Char := natDigitsAux (n + 1) n

/-- Value of a decimal digit string (most significant first). -/
def digitsVal (cs : List Char) : Nat :=
  cs.foldl (fun acc c => acc * 10 + digitVal c) 0

/-- Left-pad with ASCII zeros to a minimum width. -/
def padZeros (cs : List Char) (w : Nat) : List Char :=
  List.replicate (w - cs.length) (digitChar 0) ++ cs

/-- Python `f"{n:04d}"`: pad to total width 4, sign included for negatives. -/
def format04 (n : Int) : String :=
  if n < 0 then String.mk (Char.ofNat 45 :: padZeros (natDigits (-n).toNat) 3)
  else String.mk (padZeros (natDigits n.toNat) 4)

theorem digitVal_digitChar : ∀ d : Nat, d < 10 → digitVal (digitChar d) = d := by
  decide

theorem digitsVal_from (cs : List Char) (acc : Nat) :
    cs.foldl (fun acc c => acc * 10 + digitVal c) acc =
      acc * 10 ^ cs.length + digitsVal cs := by
  induction cs generalizing acc with
  | nil => simp [digitsVal]
  | cons c rest ih =>
    rw [digitsVal, List.foldl_cons, List.foldl_cons, ih, ih (0 * 10 + digitVal c),
      List.length_cons, pow_succ]
    ring

theorem digitsVal_snoc (cs : List Char) (c : Char) :
    digitsVal (cs ++ [c]) = digitsVal cs * 10 + digitVal c := by
  rw [digitsVal, List.foldl_append, List.foldl_cons, List.foldl_nil,
    digitsVal_from]
  simp

theorem natDigitsAux_val : ∀ (fuel n : Nat), n < fuel →
    digitsVal (natDigitsAux fuel n) = n := by
  intro fuel
  induction fuel with
  | zero => intro n h; omega
  | succ fuel ih =>
    intro n h
    rw [natDigitsAux]
    by_cases h10 : n < 10
    · rw [if_pos h10]
      rw [show ([digitChar n] : List Char) = [] ++ [digitChar n] from rfl,
        digitsVal_snoc]
      simp [digitsVal, digitVal_digitChar n h10]
    · rw [if_neg h10]
      have hdiv : n / 10 < n := Nat.div_lt_self (by omega) (by omega)
      rw [digitsVal_snoc, ih (n / 10) (by omega),
        digitVal_digitChar (n % 10) (Nat.mod_lt _ (by omega))]
      omega

theorem natDigits_val (n : Nat) : digitsVal (natDigits n) = n :=
  natDigitsAux_val (n + 1) n (by omega)

theorem digitsVal_padZeros (cs : List Char) (w : Nat) :
    digitsVal (padZeros cs w) = digitsVal cs := by
  rw [padZeros, digitsVal, List.foldl_append]
  have hz : ∀ m : Nat, (List.replicate m (digitChar 0)).foldl
      (fun acc c => acc * 10 + digitVal c) 0 = 0 := by
    intro m
    induction m with
    | zero => rfl
    | succ m ih =>
      rw [List.replicate_succ, List.foldl_cons]
      simpa [digitVal_digitChar 0 (by omega)] using ih
  rw [hz]
  rfl

/-- `format04` is injective on nonnegative values. -/
theorem format04_inj_nonneg (a b : Int) (ha : 0 ≤ a) (hb : 0 ≤ b)
    (h : format04 a = format04 b) : a = b := by
  rw [format04, format04, if_neg (by omega), if_neg (by omega)] at h
  have hdata : padZeros (natDigits a.toNat) 4 = padZeros (natDigits b.toNat) 4 := by
    have := congrArg String.data h
    simpa using this
  have hval := congrArg digitsVal hdata
  rw [digitsVal_padZeros, digitsVal_padZeros, natDigits_val, natDigits_val] at hval
  omega

theorem natDigitsAux_length : ∀ (fuel n k : Nat), n < fuel → 0 < k → n < 10 ^ k →
    (natDigitsAux fuel n).length ≤ k := by
  intro fuel
  induction fuel with
  | zero => intro n k h; omega
  | succ fuel ih =>
    intro n k h hk hb
    rw [natDigitsAux]
    by_cases h10 : n < 10
    · rw [if_pos h10]
      simpa using hk
    · rw [if_neg h10]
      have hk2 : 2 ≤ k := by
        by_contra hcon
        have hk1 : k = 1 := by omega
        rw [hk1] at hb
        simp at hb
        omega
      have hdiv : n / 10 < n := Nat.div_lt_self (by omega) (by omega)
      have hbd : n / 10 < 10 ^ (k - 1) := by
        have h1 : (10 : Nat) ^ k = 10 ^ (k - 1) * 10 := by
          rw [← pow_succ]
          congr 1
          omega
        rw [Nat.div_lt_iff_lt_mul (by omega)]
        omega
      have := ih (n / 10) (k - 1) (by omega) (by omega) hbd
      rw [List.length_append, List.length_singleton]
      omega

/-- Formatted nonnegative ids below 10000 have exactly 4 characters. -/
theorem format04_length (n : Int) (h0 : 0 ≤ n) (hlt : n < 10000) :
    (format04 n).length = 4 := by
  rw [format04, if_neg (by omega)]
  show (padZeros (natDigits n.toNat) 4).length = 4
  rw [padZeros, List.length_append, List.length_replicate]
  have hlen : (natDigits n.toNat).length ≤ 4 := by
    rw [natDigits]
    refine natDigitsAux_length _ _ 4 (by omega) (by omega) ?_
    omega
  omega

/-! ### Persist domain index (helpers/persist/index.py)

A domain directory is embedded as the parsed content of its files: the
index.json content (none when the file is missing) and the other `.json`
files keyed by stem, holding their parsed JSON value (the byte-level
read/write cycle is handled by helpers.fs atomic_write_json / read_json and
is modelled as identity at the value level).  The whole domain is
`Option Domain`: none when the directory does not exist.  The domain lock
only serialises the read-mutate-write cycles below and has no effect in this
single-actor model; audit timestamps (`utc_now_iso`) are threaded as an
explicit `now` argument. -/

/-- `PersistHistoryEntry`: audit entry in the index. -/
structure PersistHistoryEntry where
  doc_id : String
  created_at : String
  note : Option String := none
  deriving Repr, DecidableEq

/-- `PersistIndex` with its defaults (`active_id="0001"`, `next_id=2`). -/
structure PersistIndex where
  active_id : String := "0001"
  next_id : Int := 2
  history : List PersistHistoryEntry := []
  deriving Repr, DecidableEq

/-- A domain directory: index.json content and the other json files by stem. -/
structure Domain where
  index : Option PersistIndex := none
  docs : List (String × JTree) := []
  deriving Repr, DecidableEq

/-- `ensure_domain`: create the directory when missing. -/
def ensure_domain : Option Domain → Domain
  | none => {}
  | some d => d

/-- `read_index`: a missing index.json yields the default PersistIndex. -/
def read_index (dom : Domain) : PersistIndex :=
  match dom.index with
  | none => {}
  | some idx => idx

/-- `_parse_doc_id`: 4-digit all-numeric stems only. -/
def parseDocId (stem : String) : Option Nat :=
  if stem.length = 4 ∧ stem.data.all Char.isDigit then some (digitsVal stem.data)
  else none

/-- Code-point lexicographic order on char lists (Python string `<=`). -/
def strListLe : List Char → List Char → Bool
  | [], _ => true
  | _ :: _, [] => false
  | a :: as, b :: bs =>
      if a.toNat < b.toNat then true
      else if b.toNat < a.toNat then false
      else strListLe as bs

/-- Python string `<=` (code-point lexicographic). -/
def strLe (s t : String) : Bool := strListLe s.data t.data

/-- Insertion into a sorted string list (for Python `sorted`). -/
def insertSorted (s : String) : List String → List String
  | [] => [s]
  | x :: xs => if strLe s x then s :: x :: xs else x :: insertSorted s xs

/-- Python `sorted` on strings (insertion sort). -/
def sortStrings (l : List String) : List String := l.foldr insertSorted []

/-- `list_doc_ids`: the sorted 4-digit stems of the domain folder (index.json
lives in a separate field of `Domain` and is excluded by construction). -/
def list_doc_ids (st : Option Domain) : List String :=
  match st with
  | none => []
  | some dom =>
      sortStrings ((dom.docs.map Prod.fst).filter (fun s => (parseDocId s).isSome))

/-- `allocate_next_id`: under the domain lock, read the index, format
`next_id` as the new 4-digit id, advance `next_id`, optionally append an
audit entry, write the index back.  No revision file is written. -/
def allocate_next_id (st : Option Domain) (note : Option String) (now : String) :
    String × Domain :=
  let dom := ensure_domain st
  let idx := read_index dom
  let doc_id := format04 idx.next_id
  let idx1 := { idx with next_id := idx.next_id + 1 }
  let idx2 :=
    match note with
    | some n =>
        { idx1 with history := idx1.history ++ [⟨doc_id, now, some n⟩] }
    | none => idx1
  (doc_id, { dom with index := some idx2 })

/-- `ensure_seeded` (helpers/persist/index.py): write a default index.json
when it is missing and the seed doc file when it is missing.  It never
consults or verifies `active_id` and has no failure path. -/
def ensure_seeded (st : Option Domain) (seed_doc_id : String) (seed_raw : JTree) :
    Domain :=
  let dom := ensure_domain st
  let dom1 :=
    match dom.index with
    | none =>
        { dom with index := some { active_id := seed_doc_id, next_id := 2 } }
    | some _ => dom
  match dlookup dom1.docs seed_doc_id with
  | some _ => dom1
  | none => { dom1 with docs := dset dom1.docs seed_doc_id seed_raw }

/-- `set_active`: update_index rewriting the active pointer, with an optional
audit note. -/
def set_active (st : Option Domain) (doc_id : String) (note : Option String)
    (now : String) : Domain :=
  let dom := ensure_domain st
  let idx := read_index dom
  let idx1 := { idx with active_id := doc_id }
  let idx2 :=
    match note with
    | some n => { idx1 with history := idx1.history ++ [⟨doc_id, now, some n⟩] }
    | none => idx1
  { dom with index := some idx2 }

/-! ### Claim C5 -/

/-- N sequential `allocate_next_id` calls (no audit notes). -/
def allocateSeq (now : String) : Option Domain → Nat → List String × Domain
  | st, 0 => ([], ensure_domain st)
  | st, n + 1 =>
      let p := allocate_next_id st none now
      let q := allocateSeq now (some p.2) n
      (p.1 :: q.1, q.2)

theorem allocateSeq_spec (now : String) : ∀ (N : Nat) (dom : Domain),
    (allocateSeq now (some dom) N).1 =
      (List.range N).map
        (fun (i : Nat) => format04 ((read_index dom).next_id + (i : Int))) ∧
    (read_index (allocateSeq now (some dom) N).2).next_id =
      (read_index dom).next_id + (N : Int) := by
  intro N
  induction N with
  | zero =>
    intro dom
    refine ⟨by simp [allocateSeq], ?_⟩
    show (read_index dom).next_id = (read_index dom).next_id + ((0 : Nat) : Int)
    push_cast
    ring
  | succ N ih =>
    intro dom
    have hstepN : (read_index (allocate_next_id (some dom) none now).2).next_id =
        (read_index dom).next_id + 1 := rfl
    obtain ⟨ih1, ih2⟩ := ih (allocate_next_id (some dom) none now).2
    rw [hstepN] at ih1 ih2
    constructor
    · rw [show (allocateSeq now (some dom) (N + 1)).1 =
          (allocate_next_id (some dom) none now).1 ::
            (allocateSeq now (some (allocate_next_id (some dom) none now).2) N).1
          from rfl, ih1, List.range_succ_eq_map, List.map_cons, List.map_map]
      refine List.cons_eq_cons.mpr ⟨?_, ?_⟩
      · show format04 ((read_index dom).next_id) =
            format04 ((read_index dom).next_id + ((0 : Nat) : Int))
        congr 1
        push_cast
        ring
      · refine List.map_congr_left (fun i _ => ?_)
        show format04 ((read_index dom).next_id + 1 + (i : Int)) =
            format04 ((read_index dom).next_id + ((Nat.succ i : Nat) : Int))
        congr 1
        push_cast
        ring
    · rw [show (allocateSeq now (some dom) (N + 1)).2 =
          (allocateSeq now (some (allocate_next_id (some dom) none now).2) N).2
          from rfl, ih2]
      push_cast
      ring

/-- Claim C5 (confirmed): on a fresh domain seeded with active_id "0001" and
next_id 2, N sequential allocate_next_id calls return exactly the ids
`format04 2, format04 3, ..., format04 (N+1)` — i.e. "0002", "0003", ... —
with no gaps and no repeats; the final stored next_id is N+2; each single
call advances the stored next_id by exactly one; and while N+1 stays below
10000 every returned id has exactly 4 characters. -/
theorem C5_monotonic_ids (seed : JTree) (now : String) (N : Nat) :
    (allocateSeq now (some (ensure_seeded none "0001" seed)) N).1 =
      (List.range N).map (fun (i : Nat) => format04 ((i : Int) + 2)) ∧
    (allocateSeq now (some (ensure_seeded none "0001" seed)) N).1.Nodup ∧
    (read_index (allocateSeq now (some (ensure_seeded none "0001" seed)) N).2).next_id =
      (N : Int) + 2 ∧
    (∀ st : Option Domain,
      (read_index (allocate_next_id st none now).2).next_id =
        (read_index (ensure_domain st)).next_id + 1) ∧
    (N + 1 < 10000 →
      ∀ id ∈ (allocateSeq now (some (ensure_seeded none "0001" seed)) N).1,
        id.length = 4) := by
  obtain ⟨h1, h2⟩ := allocateSeq_spec now N (ensure_seeded none "0001" seed)
  have hids : (allocateSeq now (some (ensure_seeded none "0001" seed)) N).1 =
      (List.range N).map (fun (i : Nat) => format04 ((i : Int) + 2)) := by
    rw [h1]
    refine List.map_congr_left (fun i _ => ?_)
    congr 1
    show (2 : Int) + (i : Int) = (i : Int) + 2
    ring
  refine ⟨hids, ?_, ?_, ?_, ?_⟩
  · rw [hids]
    refine List.Nodup.map_on ?_ (List.nodup_range N)
    intro x _ y _ hxy
    have := format04_inj_nonneg ((x : Int) + 2) ((y : Int) + 2)
      (by omega) (by omega) hxy
    omega
  · rw [h2]
    show (2 : Int) + (N : Int) = (N : Int) + 2
    ring
  · intro st
    rfl
  · intro hN id hid
    rw [hids] at hid
    obtain ⟨i, hi, hfmt⟩ := List.mem_map.mp hid
    rw [← hfmt]
    refine format04_length _ (by omega) ?_
    have : i < N := List.mem_range.mp hi
    omega

/-- Witness for C5 at N = 3: ids "0002","0003","0004", final next_id 5. -/
theorem C5_monotonic_ids_witness :
    (allocateSeq "T" (some (ensure_seeded none "0001" (.obj []))) 3).1 =
      ["0002", "0003", "0004"] ∧
    (read_index
      (allocateSeq "T" (some (ensure_seeded none "0001" (.obj []))) 3).2).next_id = 5 := by
  have h := C5_monotonic_ids (.obj []) "T" 3
  refine ⟨?_, ?_⟩
  · rw [h.1]
    decide
  · rw [h.2.2.1]
    decide

/-! ### Claim C6: ensure_seeded vs the legacy loader
(helpers/catalogloader/persistedloader.py) -/

/-- Legacy PersistIndex of helpers/catalogloader/persistedloader.py
(field `next_int`; history entries carry op, doc_id, note). -/
structure LegacyIndex where
  active_id : String
  next_int : Int
  history : List (String × String × String) := []
  deriving Repr, DecidableEq

/-- Legacy domain folder: index.json content and docs by stem. -/
structure LegacyDomain where
  index : Option LegacyIndex := none
  docs : List (String × JTree) := []
  deriving Repr, DecidableEq

/-- `PersistedCatalogLoader.ensure_seeded` of the legacy loader: when an
index exists it verifies that the doc named by `active_id` exists and raises
ValidationError (modelled `none`) when it does not; otherwise it seeds doc
"0001" (seed_raw must be a dict and must pass the loader validation) plus a
fresh index recording a seed history entry. -/
def legacy_ensure_seeded (dom : LegacyDomain) (seed : JTree)
    (validate : JTree → Bool) (note : String) :
    Option (LegacyIndex × LegacyDomain) :=
  match dom.index with
  | some idx =>
      match dlookup dom.docs idx.active_id with
      | some _ => some (idx, dom)
      | none => none
  | none =>
      match seed with
      | .obj kvs =>
          if validate (.obj kvs) then
            let doc_id := format04 1
            let idx : LegacyIndex :=
              { active_id := doc_id, next_int := 2,
                history := [("seed", doc_id, note)] }
            some (idx, { index := some idx,
                         docs := dset dom.docs doc_id (.obj kvs) })
          else none
      | _ => none

/-- Claim C6 (corrected): the cited `ensure_seeded` in
helpers/persist/index.py never consults `active_id` — with an existing index
it leaves the index untouched and has no failure path.  The
verify-the-active-doc behaviour lives in the legacy
PersistedCatalogLoader.ensure_seeded, which returns the index unchanged when
the active doc exists and fails fatally (none) exactly when the doc named by
`active_id` is missing. -/
theorem C6_ensure_seeded
    (dom : Domain) (ldom : LegacyDomain) (idx : PersistIndex)
    (lidx : LegacyIndex) (sid : String) (seed lseed : JTree)
    (validate : JTree → Bool) (note : String)
    (hdom : dom.index = some idx) (hldom : ldom.index = some lidx) :
    (ensure_seeded (some dom) sid seed).index = some idx ∧
    (dlookup ldom.docs lidx.active_id = none →
      legacy_ensure_seeded ldom lseed validate note = none) ∧
    (∀ v, dlookup ldom.docs lidx.active_id = some v →
      legacy_ensure_seeded ldom lseed validate note = some (lidx, ldom)) := by
  refine ⟨?_, ?_, ?_⟩
  · cases hl : dlookup dom.docs sid with
    | some v =>
      simp only [ensure_seeded, ensure_domain, hdom, hl]
    | none =>
      simp only [ensure_seeded, ensure_domain, hdom, hl]
  · intro h
    simp only [legacy_ensure_seeded, hldom, h]
  · intro v hv
    simp only [legacy_ensure_seeded, hldom, hv]

/-- A domain whose index points at "9999" while only "0001" exists. -/
def c6cexDom : Domain :=
  { index := some { active_id := "9999", next_id := 5, history := [] },
    docs := [("0001", .obj [])] }

/-- Counterexample to C6 as stated: the cited ensure_seeded succeeds and
changes nothing at all on a domain whose active doc "9999" is missing — it
neither fails nor repairs. -/
theorem C6_ensure_seeded_cex :
    ensure_seeded (some c6cexDom) "0001" (.obj []) = c6cexDom ∧
    dlookup c6cexDom.docs "9999" = none := by
  exact ⟨rfl, rfl⟩

/-- The same broken domain on the legacy side. -/
def c6wLDom : LegacyDomain :=
  { index := some { active_id := "9999", next_int := 5, history := [] },
    docs := [("0001", .obj [])] }

/-- Witness for C6: concrete broken domains on both sides. -/
theorem C6_ensure_seeded_witness :
    (ensure_seeded (some c6cexDom) "0001" (.obj [])).index =
      some { active_id := "9999", next_id := 5, history := [] } ∧
    legacy_ensure_seeded c6wLDom (.obj []) (fun _ => true) "seed" = none := by
  have h := C6_ensure_seeded c6cexDom c6wLDom
      { active_id := "9999", next_id := 5, history := [] }
      { active_id := "9999", next_int := 5, history := [] }
      "0001" (.obj []) (.obj []) (fun _ => true) "seed" rfl rfl
  exact ⟨h.1, h.2.1 rfl⟩

/-! ### Claim C7: validate_domain_state / repair_domain_state

The report messages are embedded as a `Finding` inductive carrying the data
interpolated into the Python message strings; the purely informational
`stats` dict of PersistDomainReport is omitted.  A malformed-but-present
index file (the "Index load failed" branch) is not representable in the
value-level `Domain`, whose index field is either absent or a parsed
PersistIndex, so that branch has no model counterpart. -/

/-- One report finding of validate_domain_state. -/
inductive Finding where
  | domainMissing
  | indexMissing
  | activeDocMissing (doc_id : String)
  | nextIdTooSmall (next_id : Int) (expected : Nat)
  | nextIdUnusuallyLarge (next_id : Int) (expected : Nat)
  deriving Repr, DecidableEq

/-- PersistDomainReport (errors and warnings; stats omitted). -/
structure PersistDomainReport where
  errors : List Finding := []
  warnings : List Finding := []
  deriving Repr, DecidableEq

/-- `max(int(x) for x in ids)` over 4-digit ids (0 on the empty list, which
never reaches a caller: both uses are guarded by `ids ≠ []`). -/
def maxIdVal (ids : List String) : Nat :=
  (ids.map (fun s => digitsVal s.data)).foldl max 0

/-- Python `str(n)` for a natural number. -/
def natToStr (n : Nat) : String := String.mk (natDigits n)

/-- `validate_domain_state`: structured integrity report, no exceptions. -/
def validate_domain_state (st : Option Domain) : PersistDomainReport :=
  match st with
  | none => { errors := [Finding.domainMissing] }
  | some dom =>
      let warn0 : List Finding :=
        match dom.index with
        | none => [Finding.indexMissing]
        | some _ => []
      let idx := read_index dom
      let ids := list_doc_ids (some dom)
      let err0 : List Finding :=
        match dlookup dom.docs idx.active_id with
        | some _ => []
        | none => [Finding.activeDocMissing idx.active_id]
      let warn1 : List Finding :=
        if ids.isEmpty then []
        else
          let expected := maxIdVal ids + 1
          (if idx.next_id < (expected : Int) then
            [Finding.nextIdTooSmall idx.next_id expected] else []) ++
          (if idx.next_id > (expected : Int) + 1000 then
            [Finding.nextIdUnusuallyLarge idx.next_id expected] else [])
      { errors := err0, warnings := warn0 ++ warn1 }

/-- `repair_domain_state`: create a missing index, optionally seed "0001"
when no docs exist, repoint a dangling active_id to the latest doc, raise a
too-small next_id — each fix appending an audit history entry — and never
delete a doc.  Returns the post-repair domain state (the Python function
returns the post-repair validate report over this state). -/
def repair_domain_state (st : Option Domain) (ensure_seed_doc : Bool)
    (now : String) : Domain :=
  let dom0 := ensure_domain st
  let dom1 :=
    match dom0.index with
    | none => { dom0 with index := some {} }
    | some _ => dom0
  let idx0 := read_index dom1
  let ids0 := list_doc_ids (some dom1)
  let seeding :=
    if ensure_seed_doc && ids0.isEmpty then
      let dom2 :=
        if (dlookup dom1.docs "0001").isSome then dom1
        else { dom1 with docs := dset dom1.docs "0001" (.obj []) }
      (dom2, list_doc_ids (some dom2))
    else (dom1, ids0)
  let dom3 := seeding.1
  let ids := seeding.2
  let idx1 :=
    if (dlookup dom3.docs idx0.active_id).isNone && !ids.isEmpty then
      let na := ids.getLastD ""
      { idx0 with active_id := na,
                  history := idx0.history ++
                    [⟨na, now, some "repair: set active to latest"⟩] }
    else idx0
  let idx2 :=
    if !ids.isEmpty then
      let expected := maxIdVal ids + 1
      if idx1.next_id < (expected : Int) then
        { idx1 with next_id := (expected : Int),
                    history := idx1.history ++
                      [⟨idx1.active_id, now,
                        some ("repair: set next_id=" ++ natToStr expected)⟩] }
      else idx1
    else idx1
  { dom3 with index := some idx2 }

/-- The self-repair scenario: docs 0001..0003, active "9999", next_id 1. -/
def c7Dom : Domain :=
  { index := some { active_id := "9999", next_id := 1, history := [] },
    docs := [("0001", .obj []), ("0002", .obj []), ("0003", .obj [])] }

/-- Claim C7 (confirmed): on a domain with docs 0001..0003 whose index has
active_id "9999" and next_id 1, validate_domain_state reports exactly the
error active-doc-missing("9999") and the warning next_id-too-small(1, 4);
repair_domain_state repoints active_id to "0003" and raises next_id to 4,
appending one audit entry per fix and leaving the doc files untouched; the
subsequent validate_domain_state reports no errors and no warnings. -/
theorem C7_validate_repair :
    validate_domain_state (some c7Dom) =
      { errors := [Finding.activeDocMissing "9999"],
        warnings := [Finding.nextIdTooSmall 1 4] } ∧
    repair_domain_state (some c7Dom) true "T" =
      { index := some { active_id := "0003", next_id := 4, history :=
          [⟨"0003", "T", some "repair: set active to latest"⟩,
           ⟨"0003", "T", some "repair: set next_id=4"⟩] },
        docs := c7Dom.docs } ∧
    (repair_domain_state (some c7Dom) true "T").docs = c7Dom.docs ∧
    validate_domain_state (some (repair_domain_state (some c7Dom) true "T")) =
      { errors := [], warnings := [] } := by
  refine ⟨rfl, by decide, rfl, by decide⟩

/-! ### Claim C8: PersistedCatalogLoader
(helpers/persist/persisted_catalog_loader.py)

CatalogLoader.save_raw / load_raw write and read a JSON file through
helpers.fs atomic_write_json / read_json; at the value level of the
embedding a stored doc is its parsed JSON value, so the write/read cycle is
the identity on the stored `JTree`.  The loader validation callback is an
abstract `validate : JTree → Bool` (raising = false). -/

/-- EditableCatalog: the mutable raw tree (schema tags omitted). -/
structure EditableCatalog where
  raw : JTree
  deriving Repr, DecidableEq

/-- The set-active audit note: Python
`f"set active\x7b: + note if note else \x7d"` — the note is appended only
when truthy (not None and not empty). -/
def mkActiveNote (note : Option String) : String :=
  match note with
  | some n => if n = "" then "set active" else "set active: " ++ n
  | none => "set active"

/-- `PersistedCatalogLoader.save_new_revision`: ensure the domain is seeded,
optionally validate the editable raw (failure raises, modelled `none`),
allocate the next id, write the raw tree as that revision doc, and
optionally promote it to active. Returns the new id and the new state. -/
def save_new_revision (st : Option Domain) (seed : JTree)
    (validate : JTree → Bool) (ed : EditableCatalog) (note : Option String)
    (validate_before_save make_active : Bool) (now : String) :
    Option (String × Domain) :=
  let dom0 := ensure_seeded st "0001" seed
  if validate_before_save && !validate ed.raw then none
  else
    let q := allocate_next_id (some dom0) note now
    let dom2 := { q.2 with docs := dset q.2.docs q.1 ed.raw }
    let dom3 :=
      if make_active then set_active (some dom2) q.1 (some (mkActiveNote note)) now
      else dom2
    some (q.1, dom3)

/-- `PersistedCatalogLoader.load_revision_raw`: ensure seeded, then read the
revision doc (missing doc raises, modelled `none`). -/
def load_revision_raw (st : Option Domain) (seed : JTree) (doc_id : String) :
    Option (JTree × Domain) :=
  let dom := ensure_seeded st "0001" seed
  match dlookup dom.docs doc_id with
  | some raw => some (raw, dom)
  | none => none

theorem ensure_seeded_docs (st : Option Domain) (sid : String) (seed : JTree) :
    (ensure_seeded st sid seed).docs =
      (match dlookup (ensure_domain st).docs sid with
       | some _ => (ensure_domain st).docs
       | none => dset (ensure_domain st).docs sid seed) := by
  unfold ensure_seeded
  cases hidx : (ensure_domain st).index <;> simp only [hidx] <;>
    cases hl : dlookup (ensure_domain st).docs sid <;> simp [hl]

theorem ensure_seeded_seed_mem (st : Option Domain) (sid : String)
    (seed : JTree) : (dlookup (ensure_seeded st sid seed).docs sid).isSome := by
  rw [ensure_seeded_docs]
  cases hl : dlookup (ensure_domain st).docs sid with
  | some v => simp [hl]
  | none => simp [hl, dlookup_dset_self]

theorem ensure_seeded_ready (dom : Domain) (idx : PersistIndex) (sid : String)
    (seed : JTree) (hidx : dom.index = some idx)
    (hmem : (dlookup dom.docs sid).isSome) :
    ensure_seeded (some dom) sid seed = dom := by
  obtain ⟨v, hv⟩ := Option.isSome_iff_exists.mp hmem
  unfold ensure_seeded
  simp only [ensure_domain, hidx, hv]

theorem allocate_docs (st : Option Domain) (note : Option String)
    (now : String) :
    (allocate_next_id st note now).2.docs = (ensure_domain st).docs := by
  cases note <;> rfl

theorem allocate_index_isSome (st : Option Domain) (note : Option String)
    (now : String) : ((allocate_next_id st note now).2.index).isSome := by
  cases note <;> rfl

theorem set_active_docs (st : Option Domain) (id : String)
    (note : Option String) (now : String) :
    (set_active st id note now).docs = (ensure_domain st).docs := by
  cases note <;> rfl

theorem set_active_index_isSome (st : Option Domain) (id : String)
    (note : Option String) (now : String) :
    ((set_active st id note now).index).isSome := by
  cases note <;> rfl

theorem load_after_save (dom0 : Domain) (seed : JTree) (new_id : String)
    (raw : JTree) (dom3 : Domain)
    (hdocs : dom3.docs = dset dom0.docs new_id raw)
    (hidx : (dom3.index).isSome)
    (h0 : (dlookup dom0.docs "0001").isSome) :
    load_revision_raw (some dom3) seed new_id = some (raw, dom3) := by
  obtain ⟨idx, hidx2⟩ := Option.isSome_iff_exists.mp hidx
  have hes : ensure_seeded (some dom3) "0001" seed = dom3 := by
    refine ensure_seeded_ready dom3 idx "0001" seed hidx2 ?_
    rw [hdocs]
    by_cases hne : ("0001" : String) = new_id
    · rw [hne, dlookup_dset_self]
      rfl
    · rw [dlookup_dset_ne _ _ _ _ hne]
      exact h0
  unfold load_revision_raw
  rw [hes]
  show (match dlookup dom3.docs new_id with
        | some r => some (r, dom3)
        | none => none) = some (raw, dom3)
  rw [hdocs, dlookup_dset_self]

/-- Claim C8 (confirmed): when the editable raw tree passes validation,
save_new_revision succeeds, and load_revision_raw of the id it allocated
returns exactly `editable.raw` (the value persisted through the JSON
write/read cycle), for any prior domain state, note, and make_active flag. -/
theorem C8_save_load_roundtrip (st : Option Domain) (seed : JTree)
    (validate : JTree → Bool) (ed : EditableCatalog) (note : Option String)
    (make_active : Bool) (now : String) (hv : validate ed.raw = true) :
    ∃ p, save_new_revision st seed validate ed note true make_active now =
        some p ∧
      load_revision_raw (some p.2) seed p.1 = some (ed.raw, p.2) := by
  have hc : (true && !validate ed.raw) = false := by
    rw [hv]
    rfl
  have h0 : (dlookup (ensure_seeded st "0001" seed).docs "0001").isSome :=
    ensure_seeded_seed_mem st "0001" seed
  have hq2 : (allocate_next_id (some (ensure_seeded st "0001" seed)) note
      now).2.docs = (ensure_seeded st "0001" seed).docs :=
    allocate_docs _ note now
  cases make_active with
  | false =>
    refine ⟨((allocate_next_id (some (ensure_seeded st "0001" seed)) note now).1,
      { (allocate_next_id (some (ensure_seeded st "0001" seed)) note now).2 with
        docs := dset (allocate_next_id (some (ensure_seeded st "0001" seed))
          note now).2.docs
          (allocate_next_id (some (ensure_seeded st "0001" seed)) note now).1
          ed.raw }), ?_, ?_⟩
    · simp [save_new_revision, hc]
    · refine load_after_save (ensure_seeded st "0001" seed) seed _ ed.raw _
        ?_ ?_ h0
      · show dset (allocate_next_id (some (ensure_seeded st "0001" seed))
            note now).2.docs _ ed.raw = _
        rw [hq2]
      · exact allocate_index_isSome (some (ensure_seeded st "0001" seed))
          note now
  | true =>
    refine ⟨((allocate_next_id (some (ensure_seeded st "0001" seed)) note now).1,
      set_active (some
        { (allocate_next_id (some (ensure_seeded st "0001" seed)) note now).2 with
          docs := dset (allocate_next_id (some (ensure_seeded st "0001" seed))
            note now).2.docs
            (allocate_next_id (some (ensure_seeded st "0001" seed)) note now).1
            ed.raw })
        (allocate_next_id (some (ensure_seeded st "0001" seed)) note now).1
        (some (mkActiveNote note)) now), ?_, ?_⟩
    · simp [save_new_revision, hc]
    · refine load_after_save (ensure_seeded st "0001" seed) seed _ ed.raw _
        ?_ ?_ h0
      · rw [set_active_docs]
        show dset (allocate_next_id (some (ensure_seeded st "0001" seed))
            note now).2.docs _ ed.raw = _
        rw [hq2]
      · exact set_active_index_isSome _ _ _ now

/-- Witness for C8: a concrete save/load round trip on a fresh domain. -/
theorem C8_save_load_roundtrip_witness :
    ∃ p, save_new_revision none (.obj []) (fun _ => true)
        ⟨.obj [("k", .str "v")]⟩ none true true "T" = some p ∧
      load_revision_raw (some p.2) (.obj []) p.1 =
        some (.obj [("k", .str "v")], p.2) :=
  C8_save_load_roundtrip none (.obj []) (fun _ => true)
    ⟨.obj [("k", .str "v")]⟩ none true "T" rfl

end MyToolkit
